import Mathlib

/-!
# storyGen: a verification development

Shallow embedding of `main.go` (package `main` of thatsBruno/storyGen) and of the
parts of the Go standard library (`bytes`, `unicode`, `unicode/utf8`), of
`encoding/json` and of gin that the program calls.

Conventions.

* A Go `string` / `[]byte` is a `List Nat` of byte values (`Bytes`); every
  definition is total on all lists, so no range hypothesis is carried around.
* Go functions that return `-1` for "not found" return `Option Nat` here
  (`none` is `-1`).
* A Go `error` is `Option String`: `none` is `nil`, `some m` an error whose
  `Error()` is `m`.
* The two remote services are functions from the request that is sent to the
  outcome of `client.Do` + `ioutil.ReadAll` + `json.Unmarshal`; every call that
  is made is appended to a log.
-/

namespace StoryGen

/-! ## Go values -/

/-- Go `string` and `[]byte`: a sequence of bytes. -/
abbrev Bytes := List Nat

/-- ASCII text as bytes (all the literals of `main.go` are ASCII). -/
def ascii (s : String) : Bytes := s.data.map Char.toNat

/-- A Go slice value: `nil`, or a slice over some elements.  `main.go` builds its
slices with `var xs []T` followed by `append`. -/
inductive Slice (α : Type) where
  | nil : Slice α
  | ofList (xs : List α) : Slice α
  deriving DecidableEq, Repr

/-- The elements of a slice, as ranged over by `for _, x := range xs`. -/
def Slice.toList {α : Type} : Slice α → List α
  | Slice.nil => []
  | Slice.ofList xs => xs

/-- Go `len(xs)`. -/
def Slice.len {α : Type} (s : Slice α) : Nat := s.toList.length

/-- Go `append(xs, x)`. -/
def Slice.append {α : Type} (s : Slice α) (x : α) : Slice α :=
  Slice.ofList (s.toList ++ [x])

/-! ## `unicode/utf8` -/

def RuneError : Nat := 0xFFFD
def RuneSelf : Nat := 0x80
def UTFMax : Nat := 4

/-- Length of the sequence a leading byte in `0xC2..0xF4` announces
(`first[p0] & 7`). -/
def seqLen (p0 : Nat) : Nat :=
  if p0 < 0xE0 then 2 else if p0 < 0xF0 then 3 else 4

/-- Lowest second byte accepted after the leading byte `p0` (`acceptRanges[..].lo`). -/
def acceptLo (p0 : Nat) : Nat :=
  if p0 = 0xE0 then 0xA0 else if p0 = 0xF0 then 0x90 else 0x80

/-- Highest second byte accepted after the leading byte `p0` (`acceptRanges[..].hi`). -/
def acceptHi (p0 : Nat) : Nat :=
  if p0 = 0xED then 0x9F else if p0 = 0xF4 then 0x8F else 0xBF

/-- Go `utf8.DecodeRune`: the first rune of `p` and its width in bytes;
`(RuneError, 0)` on empty input, `(RuneError, 1)` on an invalid encoding.
The masks and shifts of the Go code are written with `%` and `*`
(`p0 & 0x1F` is `p0 % 32`, `x << 6 | y` with `y < 64` is `x * 64 + y`). -/
def DecodeRune (p : Bytes) : Nat × Nat :=
  match p with
  | [] => (RuneError, 0)
  | p0 :: t =>
    if p0 < RuneSelf then (p0, 1)
    else if p0 < 0xC2 ∨ 0xF4 < p0 then (RuneError, 1)
    else if t.length + 1 < seqLen p0 then (RuneError, 1)
    else
      match t with
      | [] => (RuneError, 1)
      | b1 :: t1 =>
        if b1 < acceptLo p0 ∨ acceptHi p0 < b1 then (RuneError, 1)
        else if seqLen p0 ≤ 2 then (p0 % 32 * 64 + b1 % 64, 2)
        else
          match t1 with
          | [] => (RuneError, 1)
          | b2 :: t2 =>
            if b2 < 0x80 ∨ 0xBF < b2 then (RuneError, 1)
            else if seqLen p0 ≤ 3 then (p0 % 16 * 4096 + b1 % 64 * 64 + b2 % 64, 3)
            else
              match t2 with
              | [] => (RuneError, 1)
              | b3 :: _ =>
                if b3 < 0x80 ∨ 0xBF < b3 then (RuneError, 1)
                else (p0 % 8 * 262144 + b1 % 64 * 4096 + b2 % 64 * 64 + b3 % 64, 4)

/-- Go `utf8.RuneStart`: the byte is not a continuation byte (`b & 0xC0 != 0x80`). -/
def RuneStart (b : Nat) : Bool := !(decide (0x80 ≤ b) && decide (b < 0xC0))

/-- The backward scan of `utf8.DecodeLastRune`: starting at index `start`, step
down while the index is at least `lim` and the byte there is a continuation
byte.  `k` bounds the number of steps (the Go loop makes at most `UTFMax - 1`).
The result is the index the loop stops at, or `none` when it ran below zero. -/
def scanBack (p : Bytes) (lim : Nat) : Nat → Option Nat → Option Nat
  | 0, start => start
  | _, none => none
  | k + 1, some start =>
    if start < lim then some start
    else if RuneStart (p.getD start 0) then some start
    else scanBack p lim k (if start = 0 then none else some (start - 1))

/-- Go `utf8.DecodeLastRune`: the last rune of `p` and its width. -/
def DecodeLastRune (p : Bytes) : Nat × Nat :=
  let stop := p.length
  if stop = 0 then (RuneError, 0)
  else
    let r := p.getD (stop - 1) 0
    if r < RuneSelf then (r, 1)
    else
      let lim := stop - UTFMax
      let start :=
        match scanBack p lim UTFMax (if stop - 1 = 0 then none else some (stop - 2)) with
        | none => 0
        | some i => i
      let d := DecodeRune ((p.drop start).take (stop - start))
      if start + d.2 ≠ stop then (RuneError, 1) else d

/-! ## `unicode` -/

/-- Go `unicode.IsSpace`: the Latin-1 switch, then the `White_Space` table. -/
def IsSpace (r : Nat) : Bool :=
  if r ≤ 0xFF then
    r = 0x09 ∨ r = 0x0A ∨ r = 0x0B ∨ r = 0x0C ∨ r = 0x0D ∨ r = 0x20 ∨ r = 0x85 ∨ r = 0xA0
  else
    r = 0x1680 ∨ (0x2000 ≤ r ∧ r ≤ 0x200A) ∨ r = 0x2028 ∨ r = 0x2029 ∨ r = 0x202F ∨
      r = 0x205F ∨ r = 0x3000

/-! ## `bytes` -/

/-- The `asciiSpace` table of package `bytes`. -/
def asciiSpace (c : Nat) : Bool :=
  c = 0x09 ∨ c = 0x0A ∨ c = 0x0B ∨ c = 0x0C ∨ c = 0x0D ∨ c = 0x20

/-- The rune at the head of `s` as the loops of `indexFunc` read it: an ASCII
byte is its own rune, anything else goes through `DecodeRune`. -/
def headRune (s : Bytes) : Nat × Nat :=
  match s with
  | [] => (RuneError, 0)
  | c :: _ => if c < RuneSelf then (c, 1) else DecodeRune s

/-- The loop of `bytes.indexFunc` on the rest `s[start:]` of the input; `fuel`
bounds the iterations (each consumes at least one byte). -/
def indexFuncLoop (f : Nat → Bool) (truth : Bool) : Nat → Bytes → Nat → Option Nat
  | 0, _, _ => none
  | fuel + 1, rest, start =>
    match rest with
    | [] => none
    | _ :: _ =>
      let d := headRune rest
      if f d.1 = truth then some start
      else indexFuncLoop f truth fuel (rest.drop d.2) (start + d.2)

/-- Go `bytes.indexFunc`: byte index of the first rune `r` of `s` with
`f r = truth`. -/
def indexFunc (s : Bytes) (f : Nat → Bool) (truth : Bool) : Option Nat :=
  indexFuncLoop f truth s.length s 0

/-- The rune at the end of `p` as the loop of `lastIndexFunc` reads it. -/
def lastRune (p : Bytes) : Nat × Nat :=
  if p.length = 0 then (RuneError, 0)
  else
    let c := p.getD (p.length - 1) 0
    if c < RuneSelf then (c, 1) else DecodeLastRune p

/-- The loop of `bytes.lastIndexFunc` on the prefix `s[0:i]`. -/
def lastIndexFuncLoop (f : Nat → Bool) (truth : Bool) : Nat → Bytes → Option Nat
  | 0, _ => none
  | fuel + 1, p =>
    if p.length = 0 then none
    else
      let d := lastRune p
      let i := p.length - d.2
      if f d.1 = truth then some i
      else lastIndexFuncLoop f truth fuel (p.take i)

/-- Go `bytes.lastIndexFunc`: byte index of the last rune `r` of `s` with
`f r = truth`. -/
def lastIndexFunc (s : Bytes) (f : Nat → Bool) (truth : Bool) : Option Nat :=
  lastIndexFuncLoop f truth s.length s

/-- Go `bytes.TrimLeftFunc`. -/
def TrimLeftFunc (s : Bytes) (f : Nat → Bool) : Bytes :=
  match indexFunc s f false with
  | none => []
  | some i => s.drop i

/-- Go `bytes.TrimRightFunc`. -/
def TrimRightFunc (s : Bytes) (f : Nat → Bool) : Bytes :=
  match lastIndexFunc s f false with
  | none => s.take 0
  | some i =>
    if s.getD i 0 ≥ RuneSelf then s.take (i + (DecodeRune (s.drop i)).2)
    else s.take (i + 1)

/-- Go `bytes.TrimFunc`. -/
def TrimFunc (s : Bytes) (f : Nat → Bool) : Bytes :=
  TrimRightFunc (TrimLeftFunc s f) f

/-- Second loop of `bytes.TrimSpace`, on `t = s[start:]`: `stop` walks down from
the end over ASCII white space; a non-ASCII byte hands over to `TrimFunc`. -/
def trimSpaceStop (t : Bytes) : Nat → Bytes
  | 0 => []
  | stop + 1 =>
    let c := t.getD stop 0
    if c ≥ RuneSelf then TrimFunc (t.take (stop + 1)) IsSpace
    else if asciiSpace c then trimSpaceStop t stop
    else t.take (stop + 1)

/-- Go `bytes.TrimSpace`: the first loop walks `start` up over ASCII white
space, handing over to `TrimFunc` at the first non-ASCII byte. -/
def TrimSpace : Bytes → Bytes
  | [] => []
  | c :: t =>
    if c ≥ RuneSelf then TrimFunc (c :: t) IsSpace
    else if asciiSpace c then TrimSpace t
    else trimSpaceStop (c :: t) (t.length + 1)

/-- Go `bytes.Index`: index of the first instance of `sep` in `s`. -/
def Index : Bytes → Bytes → Option Nat
  | [], sep => if sep.length = 0 then some 0 else none
  | c :: t, sep =>
    if sep.isPrefixOf (c :: t) then some 0
    else (Index t sep).map (· + 1)

/-- The loop of `bytes.Count` for a non-empty separator. -/
def countLoop (sep : Bytes) : Nat → Bytes → Nat
  | 0, _ => 0
  | fuel + 1, s =>
    match Index s sep with
    | none => 0
    | some i => countLoop sep fuel (s.drop (i + sep.length)) + 1

/-- Go `bytes.Count` for a non-empty separator: the number of non-overlapping
instances of `sep` in `s`. -/
def Count (s sep : Bytes) : Nat := countLoop sep s.length s

/-- Go `bytes.explode` with no limit: `s` cut into its UTF-8 sequences. -/
def explode : Nat → Bytes → List Bytes
  | 0, _ => []
  | fuel + 1, s =>
    match s with
    | [] => []
    | _ :: _ =>
      let size := (DecodeRune s).2
      s.take size :: explode fuel (s.drop size)

/-- The loop of `bytes.genSplit`: at most `n` cuts at the next instance of `sep`,
then the rest. -/
def genSplitLoop (sep : Bytes) : Nat → Bytes → List Bytes
  | 0, s => [s]
  | n + 1, s =>
    match Index s sep with
    | none => [s]
    | some m => s.take m :: genSplitLoop sep n (s.drop (m + sep.length))

/-- Go `bytes.Split(s, sep)`, that is `genSplit(s, sep, 0, -1)`. -/
def Split (s sep : Bytes) : List Bytes :=
  if sep.length = 0 then explode s.length s
  else genSplitLoop sep (Count s sep) s

/-! ## `main.go` -/

/-- Go `splitByDelimiter`. -/
def splitByDelimiter (text delimiter : Bytes) : Slice Bytes :=
  (Split text delimiter).foldl
    (fun parts part =>
      let trimmed := TrimSpace part
      if trimmed.length > 0 then parts.append trimmed else parts)
    Slice.nil

/-- Go `StoryRequest`. -/
structure StoryRequest where
  Story : Bytes
  deriving DecidableEq, Repr

/-- An element of `OpenAIResponse.Choices`. -/
structure Choice where
  Text : Bytes
  deriving DecidableEq, Repr

/-- Go `OpenAIResponse`. -/
structure OpenAIResponse where
  Choices : List Choice
  deriving DecidableEq, Repr

/-- An element of `ImageResponse.Data`. -/
structure ImageDatum where
  URL : Bytes
  deriving DecidableEq, Repr

/-- Go `ImageResponse`. -/
structure ImageResponse where
  Data : List ImageDatum
  deriving DecidableEq, Repr

def openaiAPIKey : String := "your-openai-api-key"

/-- The request `splitStoryIntoParts` sends: URL, the three entries of the JSON
body and the two headers. -/
structure CompletionRequest where
  url : String
  model : String
  prompt : Bytes
  max_tokens : Nat
  contentType : String
  authorization : String
  deriving DecidableEq, Repr

/-- The request `generateImage` sends. -/
structure ImageRequest where
  url : String
  prompt : Bytes
  n : Nat
  size : String
  contentType : String
  authorization : String
  deriving DecidableEq, Repr

/-- The two remote services.  Each maps the request sent to what the caller
ends up with after `client.Do`, `ioutil.ReadAll` and `json.Unmarshal`: the
message of the error one of them returned, or the parsed response. -/
structure Services where
  completion : CompletionRequest → Except String OpenAIResponse
  image : ImageRequest → Except String ImageResponse

/-- An outbound call, as recorded in the log. -/
inductive Call where
  | completion (req : CompletionRequest) : Call
  | image (req : ImageRequest) : Call
  deriving DecidableEq, Repr

/-- The prompts of the image calls of a log, in the order the calls were made. -/
def imagePrompts (log : List Call) : List Bytes :=
  log.filterMap fun c =>
    match c with
    | Call.image req => some req.prompt
    | Call.completion _ => none

/-- The completion request built at lines 35-51 of `main.go`. -/
def completionRequest (story : Bytes) : CompletionRequest :=
  { url := "https://api.openai.com/v1/completions"
    model := "text-davinci-003"
    prompt :=
      ascii "Split this story into distinct parts suitable for creating a comic book: " ++ story
    max_tokens := 300
    contentType := "application/json"
    authorization := "Bearer " ++ openaiAPIKey }

/-- The image request built at lines 94-110 of `main.go`. -/
def imageRequest (description : Bytes) : ImageRequest :=
  { url := "https://api.openai.com/v1/images/generations"
    prompt := description
    n := 1
    size := "1024x1024"
    contentType := "application/json"
    authorization := "Bearer " ++ openaiAPIKey }

/-- Go `splitStoryIntoParts`: result `(parts, err)` and the extended call log.
`json.Marshal` of a map of strings and an int and `http.NewRequest` with a
constant method and URL do not fail, so the first two `return nil, err` are not
reachable; the three that follow are the `Except.error` case. -/
def splitStoryIntoParts (sv : Services) (story : Bytes) (log : List Call) :
    (Slice Bytes × Option String) × List Call :=
  let req := completionRequest story
  let log1 := log ++ [Call.completion req]
  match sv.completion req with
  | Except.error err => ((Slice.nil, some err), log1)
  | Except.ok openAIResponse =>
    if h : openAIResponse.Choices.length > 0 then
      let parts := (openAIResponse.Choices.get ⟨0, h⟩).Text
      ((splitByDelimiter parts (ascii "\n"), none), log1)
    else ((Slice.nil, some "no response from GPT-3"), log1)

/-- Go `generateImage`: result `(url, err)` and the extended call log. -/
def generateImage (sv : Services) (description : Bytes) (log : List Call) :
    (Bytes × Option String) × List Call :=
  let req := imageRequest description
  let log1 := log ++ [Call.image req]
  match sv.image req with
  | Except.error err => (([], some err), log1)
  | Except.ok imageResponse =>
    if h : imageResponse.Data.length > 0 then
      (((imageResponse.Data.get ⟨0, h⟩).URL, none), log1)
    else (([], some "no image generated"), log1)

/-- A value stored in a `gin.H` by `main.go`: a string or a slice of strings. -/
inductive HValue where
  | str (s : String) : HValue
  | strs (xs : Slice Bytes) : HValue
  deriving DecidableEq, Repr

/-- What `c.JSON(status, body)` writes. -/
structure Response where
  status : Nat
  body : List (String × HValue)
  deriving DecidableEq, Repr

def StatusOK : Nat := 200
def StatusBadRequest : Nat := 400
def StatusInternalServerError : Nat := 500

/-- A parsed JSON text (a number keeps its literal). -/
inductive Json where
  | null : Json
  | bool (b : Bool) : Json
  | num (lit : String) : Json
  | str (s : Bytes) : Json
  | arr (xs : List Json) : Json
  | obj (kvs : List (String × Json)) : Json

/-- Why `c.BindJSON` failed. -/
inductive BindError where
  | syntaxError : BindError
  | typeError : BindError
  deriving DecidableEq, Repr

/-- Whether `encoding/json` assigns the object key `key` to the field tagged
`json:"story"`: the key equals the tag up to Unicode simple case folding
(`s`, `S` and U+017F fold together; the other letters have two cases). -/
def keyMatchesStory (key : String) : Bool :=
  match key.data with
  | [a, b, c, d, e] =>
    (a = 's' ∨ a = 'S' ∨ a.toNat = 0x17F) ∧ (b = 't' ∨ b = 'T') ∧ (c = 'o' ∨ c = 'O') ∧
      (d = 'r' ∨ d = 'R') ∧ (e = 'y' ∨ e = 'Y')
  | _ => false

/-- One key of the request object decoded into `storyRequest`: a string value
is stored, `null` leaves the field alone, any other value is a type error (the
first error is kept and decoding goes on); keys of no field are skipped. -/
def bindField (acc : StoryRequest × Option BindError) (kv : String × Json) :
    StoryRequest × Option BindError :=
  if keyMatchesStory kv.1 then
    match kv.2 with
    | Json.str s => ({ Story := s }, acc.2)
    | Json.null => acc
    | _ => (acc.1, acc.2.orElse (fun _ => some BindError.typeError))
  else acc

/-- Gin `c.BindJSON(&storyRequest)` on a zero `StoryRequest`: `body` is the
parsed request body, `none` when the body is not a JSON text.  `StoryRequest`
has no `binding` tag, so the validation that follows decoding accepts every
decoded value. -/
def BindJSON (body : Option Json) : StoryRequest × Option BindError :=
  match body with
  | none => ({ Story := [] }, some BindError.syntaxError)
  | some Json.null => ({ Story := [] }, none)
  | some (Json.obj kvs) => kvs.foldl bindField ({ Story := [] }, none)
  | some _ => ({ Story := [] }, some BindError.typeError)

/-- How the loop of `handleGenerateComic` is left: by the `return` inside it,
with the response written, or at its end, with the slice built. -/
inductive LoopExit where
  | returned (resp : Response) : LoopExit
  | done (images : Slice Bytes) : LoopExit
  deriving DecidableEq, Repr

/-- The `for _, part := range parts` loop of `handleGenerateComic`. -/
def generateLoop (sv : Services) : List Bytes → Slice Bytes → List Call → LoopExit × List Call
  | [], images, log => (LoopExit.done images, log)
  | part :: rest, images, log =>
    let r := generateImage sv part log
    match r.1.2 with
    | some err =>
      (LoopExit.returned
        { status := StatusInternalServerError, body := [("error", HValue.str err)] }, r.2)
    | none => generateLoop sv rest (images.append r.1.1) r.2

/-- Go `handleGenerateComic`: the response written and the log of outbound calls. -/
def handleGenerateComic (sv : Services) (body : Option Json) : Response × List Call :=
  let b := BindJSON body
  match b.2 with
  | some _ =>
    ({ status := StatusBadRequest, body := [("error", HValue.str "Invalid input")] }, [])
  | none =>
    let storyRequest := b.1
    let r := splitStoryIntoParts sv storyRequest.Story []
    match r.1.2 with
    | some err =>
      ({ status := StatusInternalServerError, body := [("error", HValue.str err)] }, r.2)
    | none =>
      let parts := r.1.1
      match generateLoop sv parts.toList Slice.nil r.2 with
      | (LoopExit.returned resp, log) => (resp, log)
      | (LoopExit.done images, log) =>
        ({ status := StatusOK, body := [("images", HValue.strs images)] }, log)

/-! ## Lines, runes and white space -/

/-- The lines of a text: the pieces between its newline bytes. -/
def linesOf : Bytes → List Bytes
  | [] => [[]]
  | c :: t =>
    if c = 0x0A then [] :: linesOf t
    else
      match linesOf t with
      | [] => [[c]]
      | l :: ls => (c :: l) :: ls

/-- The segment list in the words of the specification: split the text at every
newline, trim each piece, drop the pieces that become empty. -/
def trimmedNonBlankLines (text : Bytes) : List Bytes :=
  ((linesOf text).map TrimSpace).filter (fun l => decide (l ≠ []))

/-- The loop of a Go `for range` over a string: the runes of `s`, an invalid byte
counting as `RuneError`. -/
def runesLoop : Nat → Bytes → List Nat
  | 0, _ => []
  | fuel + 1, s =>
    match s with
    | [] => []
    | _ :: _ => (DecodeRune s).1 :: runesLoop fuel (s.drop (DecodeRune s).2)

/-- The runes of `s` (Go `[]rune(s)`). -/
def runes (s : Bytes) : List Nat := runesLoop s.length s

/-- The text is empty or every rune of it is white space. -/
def whitespaceOnly (s : Bytes) : Bool := (runes s).all IsSpace

/-- The UTF-8 encodings of the runes `unicode.IsSpace` accepts. -/
def spaceEncodings : List Bytes :=
  [[0x09], [0x0A], [0x0B], [0x0C], [0x0D], [0x20], [0xC2, 0x85], [0xC2, 0xA0],
    [0xE1, 0x9A, 0x80], [0xE2, 0x80, 0x80], [0xE2, 0x80, 0x81], [0xE2, 0x80, 0x82],
    [0xE2, 0x80, 0x83], [0xE2, 0x80, 0x84], [0xE2, 0x80, 0x85], [0xE2, 0x80, 0x86],
    [0xE2, 0x80, 0x87], [0xE2, 0x80, 0x88], [0xE2, 0x80, 0x89], [0xE2, 0x80, 0x8A],
    [0xE2, 0x80, 0xA8], [0xE2, 0x80, 0xA9], [0xE2, 0x80, 0xAF], [0xE2, 0x81, 0x9F],
    [0xE3, 0x80, 0x80]]

/-- A concatenation of encodings of white-space runes. -/
def SpaceSeq (s : Bytes) : Prop :=
  ∃ es : List Bytes, (∀ e ∈ es, e ∈ spaceEncodings) ∧ s = es.flatten

/-- No white space at either end: the text neither starts nor ends with the
encoding of a white-space rune. -/
def Trimmed (t : Bytes) : Prop :=
  (∀ e ∈ spaceEncodings, ¬ e <+: t) ∧ (∀ e ∈ spaceEncodings, ¬ e <:+ t)

/-- The contract of trimming: `t` is what is left of `s` once a run of
white-space runes is cut off at each end, and `t` has no white space at either
end. -/
def TrimSpec (s t : Bytes) : Prop :=
  ∃ a b : Bytes, s = a ++ t ++ b ∧ SpaceSeq a ∧ SpaceSeq b ∧ Trimmed t

/-- The shapes of a result of `DecodeRune` on a non-empty input: an invalid
sequence, an ASCII byte, or a well-formed sequence of two, three or four bytes. -/
inductive Decoded : Bytes → Nat × Nat → Prop
  | invalid (s : Bytes) : Decoded s (RuneError, 1)
  | one (p0 : Nat) (t : Bytes) : p0 < 0x80 → Decoded (p0 :: t) (p0, 1)
  | two (p0 b1 : Nat) (t : Bytes) : 0xC2 ≤ p0 → p0 < 0xE0 → 0x80 ≤ b1 → b1 ≤ 0xBF →
      Decoded (p0 :: b1 :: t) (p0 % 32 * 64 + b1 % 64, 2)
  | three (p0 b1 b2 : Nat) (t : Bytes) : 0xE0 ≤ p0 → p0 < 0xF0 →
      acceptLo p0 ≤ b1 → b1 ≤ acceptHi p0 → 0x80 ≤ b2 → b2 ≤ 0xBF →
      Decoded (p0 :: b1 :: b2 :: t) (p0 % 16 * 4096 + b1 % 64 * 64 + b2 % 64, 3)
  | four (p0 b1 b2 b3 : Nat) (t : Bytes) : 0xF0 ≤ p0 → p0 ≤ 0xF4 →
      acceptLo p0 ≤ b1 → b1 ≤ acceptHi p0 → 0x80 ≤ b2 → b2 ≤ 0xBF → 0x80 ≤ b3 → b3 ≤ 0xBF →
      Decoded (p0 :: b1 :: b2 :: b3 :: t)
        (p0 % 8 * 262144 + b1 % 64 * 4096 + b2 % 64 * 64 + b3 % 64, 4)

/-! ## Sample inputs -/

/-- Services with a fixed outcome of the completion call and an image service
given by a function of the prompt. -/
def sampleServices (reply : Except String OpenAIResponse)
    (image : Bytes → Except String ImageResponse) : Services :=
  { completion := fun _ => reply
    image := fun req => image req.prompt }

/-- An image service that answers every prompt with one URL made from it. -/
def imageOk (prompt : Bytes) : Except String ImageResponse :=
  Except.ok { Data := [{ URL := ascii "https://img.example/" ++ prompt }] }

/-- An image service that fails on the prompt `bad` and answers the others. -/
def imageFailOn (bad : Bytes) (prompt : Bytes) : Except String ImageResponse :=
  if prompt = bad then Except.error "image service unavailable" else imageOk prompt

/-- The three-line story of the specification's example. -/
def heroText : Bytes := ascii "A hero rises.\nThe hero falls.\nThe hero returns."

/-- A completion response that echoes the three lines back. -/
def heroReply : Except String OpenAIResponse := Except.ok { Choices := [{ Text := heroText }] }

/-- A completion response with no choice. -/
def emptyReply : Except String OpenAIResponse := Except.ok { Choices := [] }

/-- A completion response with two choices. -/
def twoChoiceReply : Except String OpenAIResponse :=
  Except.ok { Choices := [{ Text := ascii " one \n\ntwo" }, { Text := ascii "other" }] }

/-- An image service that answers every prompt with two URLs. -/
def imageTwo (_prompt : Bytes) : Except String ImageResponse :=
  Except.ok { Data := [{ URL := ascii "https://img.example/1" }, { URL := ascii "https://img.example/2" }] }

/-- The request body `{"title": "x"}`: a JSON object without the story field. -/
def titleBody : Option Json := some (Json.obj [("title", Json.str (ascii "x"))])

/-- A completion response whose first choice is blank: spaces, newlines, a tab and
a no-break space (U+00A0). -/
def blankReply : Except String OpenAIResponse :=
  Except.ok { Choices := [{ Text := ascii " \n\t \n" ++ [0xC2, 0xA0] }, { Text := ascii "other" }] }

/-- The request body `{"story": story}`. -/
def storyBody (story : Bytes) : Option Json := some (Json.obj [("story", Json.str story)])

end StoryGen

namespace StoryGen

/-! ## UTF-8 decoding -/

theorem headRune_eq_DecodeRune (s : Bytes) : headRune s = DecodeRune s := by
  cases s with
  | nil => rfl
  | cons c t =>
    simp only [headRune, DecodeRune]
    split <;> rfl

theorem isSpace_ascii (c : Nat) (h : c < 0x80) : IsSpace c = asciiSpace c := by
  unfold IsSpace asciiSpace
  have : c ≤ 0xFF := by omega
  simp only [this, if_true]
  have h1 : c ≠ 0x85 := by omega
  have h2 : c ≠ 0xA0 := by omega
  simp [h1, h2]

theorem not_isSpace_RuneError : IsSpace RuneError = false := by decide

theorem acceptLo_ge (p0 : Nat) : 0x80 ≤ acceptLo p0 := by
  unfold acceptLo; split_ifs <;> omega

theorem acceptHi_le (p0 : Nat) : acceptHi p0 ≤ 0xBF := by
  unfold acceptHi; split_ifs <;> omega

theorem decoded_cons (p0 : Nat) (t : Bytes) : Decoded (p0 :: t) (DecodeRune (p0 :: t)) := by
  have hlo := acceptLo_ge p0
  have hhi := acceptHi_le p0
  unfold DecodeRune
  dsimp only
  by_cases h1 : p0 < RuneSelf
  · rw [if_pos h1]; exact Decoded.one p0 t h1
  rw [if_neg h1]
  by_cases h2 : p0 < 0xC2 ∨ 0xF4 < p0
  · rw [if_pos h2]; exact Decoded.invalid _
  rw [if_neg h2]
  by_cases h3 : t.length + 1 < seqLen p0
  · rw [if_pos h3]; exact Decoded.invalid _
  rw [if_neg h3]
  unfold RuneSelf at h1
  rcases t with _ | ⟨b1, t1⟩
  · exact Decoded.invalid _
  dsimp only
  by_cases h4 : b1 < acceptLo p0 ∨ acceptHi p0 < b1
  · rw [if_pos h4]; exact Decoded.invalid _
  rw [if_neg h4]
  by_cases h5 : seqLen p0 ≤ 2
  · rw [if_pos h5]
    have : p0 < 0xE0 := by unfold seqLen at h5; split_ifs at h5 <;> omega
    exact Decoded.two p0 b1 t1 (by omega) this (by omega) (by omega)
  rw [if_neg h5]
  have h5' : 0xE0 ≤ p0 := by unfold seqLen at h5; split_ifs at h5 <;> omega
  rcases t1 with _ | ⟨b2, t2⟩
  · exact Decoded.invalid _
  dsimp only
  by_cases h6 : b2 < 0x80 ∨ 0xBF < b2
  · rw [if_pos h6]; exact Decoded.invalid _
  rw [if_neg h6]
  by_cases h7 : seqLen p0 ≤ 3
  · rw [if_pos h7]
    have : p0 < 0xF0 := by unfold seqLen at h7; split_ifs at h7 <;> omega
    exact Decoded.three p0 b1 b2 t2 h5' this (by omega) (by omega) (by omega) (by omega)
  rw [if_neg h7]
  have h7' : 0xF0 ≤ p0 := by unfold seqLen at h7; split_ifs at h7 <;> omega
  rcases t2 with _ | ⟨b3, t3⟩
  · exact Decoded.invalid _
  dsimp only
  by_cases h8 : b3 < 0x80 ∨ 0xBF < b3
  · rw [if_pos h8]; exact Decoded.invalid _
  rw [if_neg h8]
  exact Decoded.four p0 b1 b2 b3 t3 h7' (by omega) (by omega) (by omega) (by omega) (by omega)
    (by omega) (by omega)

theorem seqLen_two (p0 : Nat) (h : p0 < 0xE0) : seqLen p0 = 2 := by
  unfold seqLen; rw [if_pos h]

theorem seqLen_three (p0 : Nat) (h1 : 0xE0 ≤ p0) (h2 : p0 < 0xF0) : seqLen p0 = 3 := by
  unfold seqLen; rw [if_neg (by omega), if_pos h2]

theorem seqLen_four (p0 : Nat) (h1 : 0xF0 ≤ p0) : seqLen p0 = 4 := by
  unfold seqLen; rw [if_neg (by omega), if_neg (by omega)]

theorem decode_two (p0 b1 : Nat) (t : Bytes) (h1 : 0xC2 ≤ p0) (h2 : p0 < 0xE0)
    (h3 : 0x80 ≤ b1) (h4 : b1 ≤ 0xBF) :
    DecodeRune (p0 :: b1 :: t) = (p0 % 32 * 64 + b1 % 64, 2) := by
  have hlo : acceptLo p0 = 0x80 := by unfold acceptLo; rw [if_neg (by omega), if_neg (by omega)]
  have hhi : acceptHi p0 = 0xBF := by unfold acceptHi; rw [if_neg (by omega), if_neg (by omega)]
  unfold DecodeRune
  dsimp only [RuneSelf]
  rw [if_neg (by omega), if_neg (by omega), seqLen_two p0 h2, hlo, hhi,
    if_neg (by simp), if_neg (by omega), if_pos (le_refl 2)]

theorem decode_three (p0 b1 b2 : Nat) (t : Bytes) (h1 : 0xE0 ≤ p0) (h2 : p0 < 0xF0)
    (h3 : acceptLo p0 ≤ b1) (h4 : b1 ≤ acceptHi p0) (h5 : 0x80 ≤ b2) (h6 : b2 ≤ 0xBF) :
    DecodeRune (p0 :: b1 :: b2 :: t) = (p0 % 16 * 4096 + b1 % 64 * 64 + b2 % 64, 3) := by
  unfold DecodeRune
  dsimp only [RuneSelf]
  rw [if_neg (by omega), if_neg (by omega), seqLen_three p0 h1 h2,
    if_neg (by simp), if_neg (by omega), if_neg (by omega), if_neg (by omega),
    if_pos (le_refl 3)]

theorem decode_four (p0 b1 b2 b3 : Nat) (t : Bytes) (h1 : 0xF0 ≤ p0) (h2 : p0 ≤ 0xF4)
    (h3 : acceptLo p0 ≤ b1) (h4 : b1 ≤ acceptHi p0) (h5 : 0x80 ≤ b2) (h6 : b2 ≤ 0xBF)
    (h7 : 0x80 ≤ b3) (h8 : b3 ≤ 0xBF) :
    DecodeRune (p0 :: b1 :: b2 :: b3 :: t) =
      (p0 % 8 * 262144 + b1 % 64 * 4096 + b2 % 64 * 64 + b3 % 64, 4) := by
  unfold DecodeRune
  dsimp only [RuneSelf]
  rw [if_neg (by omega), if_neg (by omega), seqLen_four p0 h1,
    if_neg (by simp), if_neg (by omega), if_neg (by omega), if_neg (by omega),
    if_neg (by omega), if_neg (by omega)]

theorem decode_one (p0 : Nat) (t : Bytes) (h : p0 < 0x80) : DecodeRune (p0 :: t) = (p0, 1) := by
  unfold DecodeRune
  dsimp only [RuneSelf]
  rw [if_pos h]

/-- A decoded width is 1 to 4 and within the input. -/
theorem decode_size (p0 : Nat) (t : Bytes) :
    1 ≤ (DecodeRune (p0 :: t)).2 ∧ (DecodeRune (p0 :: t)).2 ≤ (p0 :: t).length := by
  have h := decoded_cons p0 t
  generalize DecodeRune (p0 :: t) = d at h
  generalize hs : p0 :: t = s at h
  cases h with
  | invalid => rw [← hs]; simp
  | one => simp
  | two => simp
  | three => simp
  | four => simp

/-- A rune of width two or more depends on its own bytes only. -/
theorem decode_ext (s s' : Bytes) (h : 2 ≤ (DecodeRune s).2)
    (hpre : s.take (DecodeRune s).2 = s'.take (DecodeRune s).2) :
    DecodeRune s' = DecodeRune s := by
  rcases s with _ | ⟨p0, t⟩
  · simp [DecodeRune] at h
  have hd := decoded_cons p0 t
  generalize hdd : DecodeRune (p0 :: t) = d at hd h hpre
  generalize hs : p0 :: t = s at hd hpre hdd
  cases hd with
  | invalid => simp at h
  | one => simp at h
  | two p0 b1 t h1 h2 h3 h4 =>
    rcases s' with _ | ⟨a, _ | ⟨b, t'⟩⟩ <;> simp at hpre
    obtain ⟨rfl, rfl⟩ := hpre
    exact decode_two _ _ _ h1 h2 h3 h4
  | three p0 b1 b2 t h1 h2 h3 h4 h5 h6 =>
    rcases s' with _ | ⟨a, _ | ⟨b, _ | ⟨c, t'⟩⟩⟩ <;> simp at hpre
    obtain ⟨rfl, rfl, rfl⟩ := hpre
    exact decode_three _ _ _ _ h1 h2 h3 h4 h5 h6
  | four p0 b1 b2 b3 t h1 h2 h3 h4 h5 h6 h7 h8 =>
    rcases s' with _ | ⟨a, _ | ⟨b, _ | ⟨c, _ | ⟨d, t'⟩⟩⟩⟩ <;> simp at hpre
    obtain ⟨rfl, rfl, rfl, rfl⟩ := hpre
    exact decode_four _ _ _ _ _ h1 h2 h3 h4 h5 h6 h7 h8

/-- Each encoding of the table decodes to a white-space rune of its own length,
whatever follows it. -/
theorem decode_spaceEncoding (e : Bytes) (he : e ∈ spaceEncodings) (t : Bytes) :
    IsSpace (DecodeRune (e ++ t)).1 = true ∧ (DecodeRune (e ++ t)).2 = e.length := by
  simp only [spaceEncodings, List.mem_cons, List.mem_singleton, List.not_mem_nil, or_false] at he
  rcases he with rfl | rfl | rfl | rfl | rfl | rfl | rfl | rfl | rfl | rfl | rfl | rfl | rfl |
    rfl | rfl | rfl | rfl | rfl | rfl | rfl | rfl | rfl | rfl | rfl | rfl
  iterate 6
    rw [List.singleton_append, decode_one _ _ (by norm_num)]; exact ⟨rfl, rfl⟩
  iterate 2
    rw [List.cons_append, List.singleton_append,
      decode_two _ _ _ (by norm_num) (by norm_num) (by norm_num) (by norm_num)]
    exact ⟨rfl, rfl⟩
  all_goals
    rw [List.cons_append, List.cons_append, List.singleton_append,
      decode_three _ _ _ _ (by norm_num) (by norm_num) (by norm_num [acceptLo])
        (by norm_num [acceptHi]) (by norm_num) (by norm_num)]
    exact ⟨rfl, rfl⟩

theorem isSpace_true_iff (r : Nat) :
    IsSpace r = true ↔
      (r = 0x09 ∨ r = 0x0A ∨ r = 0x0B ∨ r = 0x0C ∨ r = 0x0D ∨ r = 0x20 ∨ r = 0x85 ∨ r = 0xA0 ∨
        r = 0x1680 ∨ (0x2000 ≤ r ∧ r ≤ 0x200A) ∨ r = 0x2028 ∨ r = 0x2029 ∨ r = 0x202F ∨
        r = 0x205F ∨ r = 0x3000) := by
  unfold IsSpace
  split_ifs with h
  · simp only [decide_eq_true_eq]; omega
  · simp only [decide_eq_true_eq]; omega

/-- A head rune that is white space is spelled by one of the encodings of the
table, and its width is the length of that encoding. -/
theorem decode_space_prefix (s : Bytes) (h : IsSpace (DecodeRune s).1 = true) :
    ∃ e ∈ spaceEncodings, ∃ t, s = e ++ t ∧ (DecodeRune s).2 = e.length := by
  rcases s with _ | ⟨p0, t⟩
  · exact absurd h (by decide)
  have hd := decoded_cons p0 t
  generalize DecodeRune (p0 :: t) = d at hd h
  generalize hs : p0 :: t = s at hd
  rw [isSpace_true_iff] at h
  cases hd with
  | invalid => simp [RuneError] at h
  | one p0 t h1 =>
    dsimp only at h
    have : p0 = 0x09 ∨ p0 = 0x0A ∨ p0 = 0x0B ∨ p0 = 0x0C ∨ p0 = 0x0D ∨ p0 = 0x20 := by omega
    refine ⟨[p0], ?_, t, rfl, rfl⟩
    rcases this with rfl | rfl | rfl | rfl | rfl | rfl <;> decide
  | two p0 b1 t h1 h2 h3 h4 =>
    dsimp only at h
    have : p0 = 0xC2 ∧ (b1 = 0x85 ∨ b1 = 0xA0) := by omega
    obtain ⟨rfl, rfl | rfl⟩ := this
    · exact ⟨[0xC2, 0x85], by decide, t, rfl, rfl⟩
    · exact ⟨[0xC2, 0xA0], by decide, t, rfl, rfl⟩
  | three p0 b1 b2 t h1 h2 h3 h4 h5 h6 =>
    dsimp only at h
    have hb1 : 0x80 ≤ b1 ∧ b1 ≤ 0xBF :=
      ⟨le_trans (acceptLo_ge p0) h3, le_trans h4 (acceptHi_le p0)⟩
    have hlo : p0 = 0xE0 → 0xA0 ≤ b1 := by
      intro hp; rw [hp] at h3; exact h3
    clear h3 h4
    have e0 : p0 % 16 = p0 - 224 := by omega
    have e1 : b1 % 64 = b1 - 128 := by omega
    have e2 : b2 % 64 = b2 - 128 := by omega
    rw [e0, e1, e2] at h
    have : (p0 = 0xE1 ∧ b1 = 0x9A ∧ b2 = 0x80) ∨
        (p0 = 0xE2 ∧ b1 = 0x80 ∧ 0x80 ≤ b2 ∧ b2 ≤ 0x8A) ∨
        (p0 = 0xE2 ∧ b1 = 0x80 ∧ (b2 = 0xA8 ∨ b2 = 0xA9 ∨ b2 = 0xAF)) ∨
        (p0 = 0xE2 ∧ b1 = 0x81 ∧ b2 = 0x9F) ∨ (p0 = 0xE3 ∧ b1 = 0x80 ∧ b2 = 0x80) := by
      rcases h with h | h | h | h | h | h | h | h | h | h | h | h | h | h | h
      iterate 8 exfalso; omega
      · left; omega
      · right; left; omega
      · right; right; left; omega
      · right; right; left; omega
      · right; right; left; omega
      · right; right; right; left; omega
      · right; right; right; right; omega
    rcases this with ⟨rfl, rfl, rfl⟩ | ⟨rfl, rfl, hb, hb'⟩ | ⟨rfl, rfl, rfl | rfl | rfl⟩ |
      ⟨rfl, rfl, rfl⟩ | ⟨rfl, rfl, rfl⟩
    · exact ⟨[0xE1, 0x9A, 0x80], by decide, t, rfl, rfl⟩
    · refine ⟨[0xE2, 0x80, b2], ?_, t, rfl, rfl⟩
      interval_cases b2 <;> decide
    · exact ⟨[0xE2, 0x80, 0xA8], by decide, t, rfl, rfl⟩
    · exact ⟨[0xE2, 0x80, 0xA9], by decide, t, rfl, rfl⟩
    · exact ⟨[0xE2, 0x80, 0xAF], by decide, t, rfl, rfl⟩
    · exact ⟨[0xE2, 0x81, 0x9F], by decide, t, rfl, rfl⟩
    · exact ⟨[0xE3, 0x80, 0x80], by decide, t, rfl, rfl⟩
  | four p0 b1 b2 b3 t h1 h2 h3 h4 h5 h6 h7 h8 =>
    dsimp only at h
    have hlo : p0 = 0xF0 → 0x90 ≤ b1 := by
      intro hp; rw [hp] at h3; exact h3
    have hb1 : 0x80 ≤ b1 ∧ b1 ≤ 0xBF :=
      ⟨le_trans (acceptLo_ge p0) h3, le_trans h4 (acceptHi_le p0)⟩
    clear h3 h4
    omega

/-! ## Runs of white space -/

theorem spaceEncoding_ne_nil (e : Bytes) (he : e ∈ spaceEncodings) : e ≠ [] := by
  rintro rfl
  exact absurd he (by decide)

theorem spaceSeq_nil : SpaceSeq [] := ⟨[], by simp, rfl⟩

theorem spaceSeq_encoding (e : Bytes) (he : e ∈ spaceEncodings) : SpaceSeq e :=
  ⟨[e], by simpa using he, by simp⟩

theorem spaceSeq_append (a b : Bytes) (ha : SpaceSeq a) (hb : SpaceSeq b) : SpaceSeq (a ++ b) := by
  obtain ⟨ea, ha1, rfl⟩ := ha
  obtain ⟨eb, hb1, rfl⟩ := hb
  refine ⟨ea ++ eb, ?_, by simp⟩
  intro e he
  rcases List.mem_append.1 he with h | h
  · exact ha1 e h
  · exact hb1 e h

/-- A run of white space is empty or starts with an encoding of the table. -/
theorem spaceSeq_cases (s : Bytes) (h : SpaceSeq s) :
    s = [] ∨ ∃ e ∈ spaceEncodings, ∃ t, s = e ++ t ∧ SpaceSeq t := by
  obtain ⟨es, h1, rfl⟩ := h
  cases es with
  | nil => left; rfl
  | cons e rest =>
    right
    exact ⟨e, h1 e (List.mem_cons_self _ _), rest.flatten, by simp,
      ⟨rest, fun x hx => h1 x (List.mem_cons_of_mem _ hx), rfl⟩⟩

/-- A run of white space is empty or ends with an encoding of the table. -/
theorem spaceSeq_cases_right (s : Bytes) (h : SpaceSeq s) :
    s = [] ∨ ∃ e ∈ spaceEncodings, ∃ t, s = t ++ e ∧ SpaceSeq t := by
  obtain ⟨es, h1, rfl⟩ := h
  rcases List.eq_nil_or_concat es with rfl | ⟨rest, e, rfl⟩
  · left; rfl
  · right
    refine ⟨e, h1 e (by simp), rest.flatten, by simp, ⟨rest, fun x hx => h1 x (by simp [hx]), rfl⟩⟩

theorem spaceSeq_head (s : Bytes) (h : SpaceSeq s) (hne : s ≠ []) :
    IsSpace (DecodeRune s).1 = true := by
  rcases spaceSeq_cases s h with rfl | ⟨e, he, t, rfl, _⟩
  · exact absurd rfl hne
  · exact (decode_spaceEncoding e he t).1

/-- Unfolding a run of white space by its first rune. -/
theorem spaceSeq_iff_decode (s : Bytes) :
    SpaceSeq s ↔
      s = [] ∨ (IsSpace (DecodeRune s).1 = true ∧ SpaceSeq (s.drop (DecodeRune s).2)) := by
  constructor
  · intro h
    rcases spaceSeq_cases s h with rfl | ⟨e, he, t, rfl, ht⟩
    · left; rfl
    · right
      obtain ⟨h1, h2⟩ := decode_spaceEncoding e he t
      refine ⟨h1, ?_⟩
      rw [h2, List.drop_left]
      exact ht
  · rintro (rfl | ⟨h1, h2⟩)
    · exact spaceSeq_nil
    · obtain ⟨e, he, t, rfl, hsz⟩ := decode_space_prefix s h1
      rw [hsz, List.drop_left] at h2
      exact spaceSeq_append _ _ (spaceSeq_encoding e he) h2

/-- No encoding of the table starts with a continuation byte. -/
theorem spaceEncoding_head (e : Bytes) (he : e ∈ spaceEncodings) :
    ∃ c t, e = c :: t ∧ (c < 0x80 ∨ 0xC0 ≤ c) := by
  simp only [spaceEncodings, List.mem_cons, List.mem_singleton, List.not_mem_nil, or_false] at he
  rcases he with rfl | rfl | rfl | rfl | rfl | rfl | rfl | rfl | rfl | rfl | rfl | rfl | rfl |
    rfl | rfl | rfl | rfl | rfl | rfl | rfl | rfl | rfl | rfl | rfl | rfl <;>
  exact ⟨_, _, rfl, by norm_num⟩

/-- A run of white space does not start with a continuation byte. -/
theorem spaceSeq_head_byte (c : Nat) (t : Bytes) (h : SpaceSeq (c :: t)) :
    c < 0x80 ∨ 0xC0 ≤ c := by
  rcases spaceSeq_cases _ h with h0 | ⟨e, he, t', h1, _⟩
  · exact absurd h0 (by simp)
  · obtain ⟨c', t'', rfl, hc⟩ := spaceEncoding_head e he
    simp only [List.cons_append, List.cons.injEq] at h1
    rw [h1.1]; exact hc

/-- An encoding of the table that starts with an ASCII byte is that byte alone,
and the byte is in `asciiSpace`. -/
theorem spaceEncoding_ascii_head (c : Nat) (t : Bytes) (he : c :: t ∈ spaceEncodings)
    (hc : c < 0x80) : t = [] ∧ asciiSpace c = true := by
  simp only [spaceEncodings, List.mem_cons, List.mem_singleton, List.not_mem_nil, or_false,
    List.cons.injEq] at he
  rcases he with h | h | h | h | h | h | h | h | h | h | h | h | h |
    h | h | h | h | h | h | h | h | h | h | h | h <;>
  first
  | (obtain ⟨rfl, rfl⟩ := h; exact ⟨rfl, by decide⟩)
  | (exfalso; omega)

/-- An encoding of the table that ends with an ASCII byte is that byte alone, and
the byte is in `asciiSpace`. -/
theorem spaceEncoding_ascii_last (q : Bytes) (c : Nat) (he : q ++ [c] ∈ spaceEncodings)
    (hc : c < 0x80) : q = [] ∧ asciiSpace c = true := by
  simp only [spaceEncodings, List.mem_cons, List.mem_singleton, List.not_mem_nil, or_false] at he
  rcases he with h | h | h | h | h | h | h | h | h | h | h | h | h |
    h | h | h | h | h | h | h | h | h | h | h | h <;>
  (have h' := congrArg List.reverse h
   simp only [List.reverse_append, List.reverse_cons, List.reverse_nil, List.nil_append,
     List.singleton_append, List.cons_append, List.cons.injEq, List.reverse_eq_nil_iff] at h'
   first
   | (obtain ⟨rfl, rfl⟩ := h'; exact ⟨rfl, by decide⟩)
   | (exfalso; omega))

theorem asciiSpace_mem (c : Nat) (h : asciiSpace c = true) : [c] ∈ spaceEncodings := by
  unfold asciiSpace at h
  simp only [decide_eq_true_eq] at h
  rcases h with rfl | rfl | rfl | rfl | rfl | rfl <;> decide

theorem asciiSpace_lt (c : Nat) (h : asciiSpace c = true) : c < 0x80 := by
  unfold asciiSpace at h
  simp only [decide_eq_true_eq] at h
  omega

/-! ## Reading forwards: `runes`, `indexFunc`, `TrimLeftFunc` -/

theorem decode_drop_length_lt (c : Nat) (t : Bytes) :
    ((c :: t).drop (DecodeRune (c :: t)).2).length < (c :: t).length := by
  have h := decode_size c t
  rw [List.length_drop]
  simp only [List.length_cons] at h ⊢
  omega

theorem runesLoop_all_iff (fuel : Nat) :
    ∀ s : Bytes, s.length ≤ fuel → ((runesLoop fuel s).all IsSpace = true ↔ SpaceSeq s) := by
  induction fuel with
  | zero =>
    intro s hs
    have : s = [] := List.length_eq_zero.1 (Nat.le_zero.1 hs)
    subst this
    simp [runesLoop, spaceSeq_nil]
  | succ n ih =>
    intro s hs
    cases s with
    | nil => simp [runesLoop, spaceSeq_nil]
    | cons c t =>
      have hlt := decode_drop_length_lt c t
      have ih' := ih ((c :: t).drop (DecodeRune (c :: t)).2) (by omega)
      rw [spaceSeq_iff_decode (c :: t)]
      simp only [runesLoop, List.all_cons, Bool.and_eq_true, ih']
      simp

/-- Every rune of `s` is white space exactly when `s` is a run of encodings of
white-space runes. -/
theorem whitespaceOnly_iff (s : Bytes) : whitespaceOnly s = true ↔ SpaceSeq s :=
  runesLoop_all_iff s.length s (le_refl _)

theorem indexFuncLoop_none_iff (fuel : Nat) :
    ∀ (rest : Bytes) (start : Nat), rest.length ≤ fuel →
      (indexFuncLoop IsSpace false fuel rest start = none ↔ SpaceSeq rest) := by
  induction fuel with
  | zero =>
    intro rest start hs
    have : rest = [] := List.length_eq_zero.1 (Nat.le_zero.1 hs)
    subst this
    simp [indexFuncLoop, spaceSeq_nil]
  | succ n ih =>
    intro rest start hs
    cases rest with
    | nil => simp [indexFuncLoop, spaceSeq_nil]
    | cons c t =>
      have hlt := decode_drop_length_lt c t
      rw [spaceSeq_iff_decode (c :: t)]
      simp only [indexFuncLoop, headRune_eq_DecodeRune]
      cases hsp : IsSpace (DecodeRune (c :: t)).1 with
      | false => simp
      | true =>
        simp only [Bool.true_eq_false, if_false]
        rw [ih _ _ (by omega)]
        simp

/-- Where `indexFunc` stops: a run of white space comes before, and the rune there
is not white space. -/
theorem indexFuncLoop_some (fuel : Nat) :
    ∀ (rest : Bytes) (start i : Nat), rest.length ≤ fuel →
      indexFuncLoop IsSpace false fuel rest start = some i →
      ∃ k, i = start + k ∧ k < rest.length ∧ SpaceSeq (rest.take k) ∧
        IsSpace (DecodeRune (rest.drop k)).1 = false := by
  induction fuel with
  | zero => intro rest start i _ h; simp [indexFuncLoop] at h
  | succ n ih =>
    intro rest start i hs h
    cases rest with
    | nil => simp [indexFuncLoop] at h
    | cons c t =>
      have hlt := decode_drop_length_lt c t
      have hsz := decode_size c t
      simp only [indexFuncLoop, headRune_eq_DecodeRune] at h
      cases hsp : IsSpace (DecodeRune (c :: t)).1 with
      | false =>
        simp only [hsp, if_true] at h
        refine ⟨0, by simpa using h.symm, by simp, by simpa using spaceSeq_nil, by simpa using hsp⟩
      | true =>
        simp only [hsp, Bool.true_eq_false, if_false] at h
        obtain ⟨k, hk1, hk2, hk3, hk4⟩ := ih _ _ _ (by omega) h
        obtain ⟨e, he, t', hst, hlen⟩ := decode_space_prefix _ hsp
        rw [List.length_drop] at hk2
        refine ⟨(DecodeRune (c :: t)).2 + k, by omega, by omega, ?_, ?_⟩
        · rw [hlen] at hk3 ⊢
          rw [hst] at hk3 ⊢
          rw [List.drop_left] at hk3
          rw [List.take_append]
          exact spaceSeq_append _ _ (spaceSeq_encoding e he) hk3
        · rw [List.drop_drop] at hk4
          exact hk4

/-- `TrimLeftFunc` cuts a run of white space off the front; what is left is empty
or starts with a rune that is not white space. -/
theorem TrimLeftFunc_spec (s : Bytes) :
    ∃ a, s = a ++ TrimLeftFunc s IsSpace ∧ SpaceSeq a ∧
      (TrimLeftFunc s IsSpace = [] ∨ IsSpace (DecodeRune (TrimLeftFunc s IsSpace)).1 = false) := by
  unfold TrimLeftFunc indexFunc
  cases h : indexFuncLoop IsSpace false s.length s 0 with
  | none =>
    refine ⟨s, by simp, ?_, Or.inl rfl⟩
    exact (indexFuncLoop_none_iff _ _ _ (le_refl _)).1 h
  | some i =>
    obtain ⟨k, hk1, _, hk3, hk4⟩ := indexFuncLoop_some _ _ _ _ (le_refl _) h
    have : i = k := by omega
    subst this
    exact ⟨s.take i, (List.take_append_drop i s).symm, hk3, Or.inr hk4⟩

/-! ## Reading backwards: `DecodeLastRune`, `lastIndexFunc`, `TrimRightFunc` -/

theorem scanBack_le (p : Bytes) (lim : Nat) (k : Nat) :
    ∀ (j i : Nat), scanBack p lim k (some j) = some i → i ≤ j := by
  induction k with
  | zero => intro j i h; simp [scanBack] at h; omega
  | succ n ih =>
    intro j i h
    simp only [scanBack] at h
    split_ifs at h with h1 h2 h3
    · simp at h; omega
    · simp at h; omega
    · cases n <;> simp [scanBack] at h
    · have := ih _ _ h; omega

theorem scanBack_stop (p : Bytes) (lim k start : Nat) (h1 : lim ≤ start)
    (h2 : RuneStart (p.getD start 0) = true) :
    scanBack p lim (k + 1) (some start) = some start := by
  simp only [scanBack]
  rw [if_neg (by omega), h2]
  simp

theorem scanBack_step (p : Bytes) (lim k start : Nat) (h1 : lim ≤ start + 1)
    (h2 : RuneStart (p.getD (start + 1) 0) = false) :
    scanBack p lim (k + 1) (some (start + 1)) = scanBack p lim k (some start) := by
  simp only [scanBack]
  rw [if_neg (by omega), h2]
  simp

theorem scanBack_none (p : Bytes) (lim : Nat) (k : Nat) : scanBack p lim k none = none := by
  cases k <;> rfl

theorem getD_append_right (q e : Bytes) (k : Nat) :
    (q ++ e).getD (q.length + k) 0 = e.getD k 0 := by
  induction q with
  | nil => simp
  | cons x xs ih =>
    rw [List.cons_append, List.length_cons, Nat.add_right_comm, List.getD_cons_succ]
    exact ih

theorem getD_concat_length (q : Bytes) (c : Nat) : (q ++ [c]).getD q.length 0 = c := by
  exact getD_append_right q [c] 0

/-- A single byte that is not ASCII does not decode. -/
theorem decode_singleton (c : Nat) (h : 0x80 ≤ c) : DecodeRune [c] = (RuneError, 1) := by
  have hd := decoded_cons c []
  generalize DecodeRune [c] = d at hd
  generalize hs : [c] = s at hd
  cases hd with
  | invalid => rfl
  | one p0 t h1 => simp at hs; omega
  | two => simp at hs
  | three => simp at hs
  | four => simp at hs

/-- The last step of `DecodeLastRune`, from whatever index the backward scan
stopped at. -/
theorem decodeLast_from_start (q : Bytes) (c start : Nat) (hc : 0x80 ≤ c)
    (hlt : start < (q ++ [c]).length) (r : Nat × Nat)
    (hr : r = if start + (DecodeRune (List.take ((q ++ [c]).length - start)
        (List.drop start (q ++ [c])))).2 ≠ (q ++ [c]).length then (RuneError, 1)
      else DecodeRune (List.take ((q ++ [c]).length - start) (List.drop start (q ++ [c])))) :
    r = (RuneError, 1) ∨
      ∃ a e, q ++ [c] = a ++ e ∧ 2 ≤ e.length ∧ r = DecodeRune e ∧ (DecodeRune e).2 = e.length := by
  have hlen : (q ++ [c]).length = q.length + 1 := by simp
  have htake : List.take ((q ++ [c]).length - start) (List.drop start (q ++ [c])) =
      List.drop start (q ++ [c]) := by
    apply List.take_of_length_le
    rw [List.length_drop]
  rw [htake] at hr
  split_ifs at hr with hsum
  · left; exact hr
  · have hsum' : start + (DecodeRune (List.drop start (q ++ [c]))).2 = (q ++ [c]).length := by
      by_contra hx; exact hsum hx
    by_cases h2 : 2 ≤ (DecodeRune (List.drop start (q ++ [c]))).2
    · right
      refine ⟨List.take start (q ++ [c]), List.drop start (q ++ [c]),
        (List.take_append_drop _ _).symm, ?_, hr, ?_⟩
      · rw [List.length_drop]; omega
      · rw [List.length_drop]; omega
    · left
      have hdrop : List.drop start (q ++ [c]) ≠ [] := by
        intro h
        have := congrArg List.length h
        rw [List.length_drop] at this
        simp at this; omega
      obtain ⟨x, xs, hx⟩ := List.exists_cons_of_ne_nil hdrop
      have hsz := decode_size x xs
      rw [hx] at hsum' h2
      have hstart1 : start = q.length := by omega
      rw [hr, hstart1, List.drop_left]
      exact decode_singleton c hc

/-- The shapes of a rune read at the end of a non-empty text. -/
theorem lastRune_cases (q : Bytes) (c : Nat) :
    (c < 0x80 ∧ lastRune (q ++ [c]) = (c, 1)) ∨
      (0x80 ≤ c ∧ lastRune (q ++ [c]) = (RuneError, 1)) ∨
      (0x80 ≤ c ∧ ∃ a e, q ++ [c] = a ++ e ∧ 2 ≤ e.length ∧
        lastRune (q ++ [c]) = DecodeRune e ∧ (DecodeRune e).2 = e.length) := by
  have hlen : (q ++ [c]).length = q.length + 1 := by simp
  have hne : ¬ ((q ++ [c]).length = 0) := by omega
  have hget : (q ++ [c]).getD ((q ++ [c]).length - 1) 0 = c := by
    rw [hlen, Nat.add_sub_cancel]; exact getD_concat_length q c
  by_cases hc : c < RuneSelf
  · left
    refine ⟨hc, ?_⟩
    unfold lastRune
    rw [if_neg hne]
    dsimp only
    rw [hget, if_pos hc]
  right
  have hc' : 0x80 ≤ c := by unfold RuneSelf at hc; omega
  have hlast : lastRune (q ++ [c]) = DecodeLastRune (q ++ [c]) := by
    unfold lastRune
    rw [if_neg hne]
    dsimp only
    rw [hget, if_neg hc]
  have hlt : (match scanBack (q ++ [c]) ((q ++ [c]).length - UTFMax) UTFMax
      (if (q ++ [c]).length - 1 = 0 then none else some ((q ++ [c]).length - 2)) with
    | none => 0
    | some i => i) < (q ++ [c]).length := by
    split
    · omega
    · rename_i i hi
      split_ifs at hi with h0
      · rw [scanBack_none] at hi; simp at hi
      · have := scanBack_le _ _ _ _ _ hi
        omega
  rcases decodeLast_from_start q c _ hc' hlt (DecodeLastRune (q ++ [c])) (by
    unfold DecodeLastRune
    rw [if_neg hne]
    dsimp only
    rw [hget, if_neg hc]
    try rfl) with h | ⟨a, e, h1, h2, h3, h4⟩
  · left; exact ⟨hc', by rw [hlast, h]⟩
  · right; exact ⟨hc', a, e, h1, h2, by rw [hlast, h3], h4⟩

theorem lastRune_size (q : Bytes) (c : Nat) :
    1 ≤ (lastRune (q ++ [c])).2 ∧ (lastRune (q ++ [c])).2 ≤ (q ++ [c]).length := by
  rcases lastRune_cases q c with ⟨_, h⟩ | ⟨_, h⟩ | ⟨_, a, e, h1, h2, h3, h4⟩
  · rw [h]; simp
  · rw [h]; simp
  · rw [h3, h4, h1]; simp; omega

/-- A rune read backwards that is white space is spelled by an encoding of the
table at the end of the text. -/
theorem lastRune_space_suffix (p : Bytes) (h : IsSpace (lastRune p).1 = true) :
    ∃ e ∈ spaceEncodings, ∃ q, p = q ++ e ∧ (lastRune p).2 = e.length := by
  rcases List.eq_nil_or_concat p with rfl | ⟨q, c, rfl⟩
  · exact absurd h (by decide)
  rw [List.concat_eq_append] at h ⊢
  rcases lastRune_cases q c with ⟨hc, h0⟩ | ⟨_, h0⟩ | ⟨_, a, e, h1, h2, h3, h4⟩
  · rw [h0] at h ⊢
    dsimp only at h
    rw [isSpace_ascii c hc] at h
    exact ⟨[c], asciiSpace_mem c h, q, rfl, rfl⟩
  · rw [h0] at h
    exact absurd h (by decide)
  · rw [h3] at h ⊢
    obtain ⟨e', he', t, rfl, hlen⟩ := decode_space_prefix e h
    rw [hlen] at h4
    have ht : t = [] := by
      have := congrArg List.length (rfl : e' ++ t = e' ++ t)
      rw [List.length_append] at h4
      exact List.length_eq_zero.1 (by omega)
    subst ht
    simp only [List.append_nil] at h1 hlen ⊢
    exact ⟨e', he', a, h1, hlen⟩

theorem decodeLast_eq (p : Bytes) (hne : ¬ p.length = 0)
    (hc : ¬ p.getD (p.length - 1) 0 < RuneSelf) (start : Nat)
    (hs : scanBack p (p.length - UTFMax) UTFMax
      (if p.length - 1 = 0 then none else some (p.length - 2)) = some start) :
    lastRune p =
      if start + (DecodeRune ((p.drop start).take (p.length - start))).2 ≠ p.length then
        (RuneError, 1)
      else DecodeRune ((p.drop start).take (p.length - start)) := by
  unfold lastRune
  rw [if_neg hne]
  dsimp only
  rw [if_neg hc]
  unfold DecodeLastRune
  rw [if_neg hne]
  dsimp only
  rw [if_neg hc, hs]

/-- A well-formed two-byte sequence at the end of a text is read backwards as it
is read forwards. -/
theorem lastRune_two (q : Bytes) (a b : Nat) (ha : RuneStart a = true) (hb : 0x80 ≤ b)
    (hd : (DecodeRune [a, b]).2 = 2) : lastRune (q ++ [a, b]) = DecodeRune [a, b] := by
  have hlen : (q ++ [a, b]).length = q.length + 2 := by simp
  have hga : (q ++ [a, b]).getD q.length 0 = a := getD_append_right q [a, b] 0
  have hgb : (q ++ [a, b]).getD (q.length + 1) 0 = b := getD_append_right q [a, b] 1
  rw [decodeLast_eq (q ++ [a, b]) (by omega)
    (by rw [hlen, show q.length + 2 - 1 = q.length + 1 by omega, hgb]; unfold RuneSelf; omega)
    q.length]
  · rw [hlen]
    rw [show q.length + 2 - q.length = 2 by omega, List.drop_left]
    rw [List.take_of_length_le (by simp), hd, if_neg (by simp)]
  · rw [hlen, if_neg (by omega), show q.length + 2 - 2 = q.length by omega]
    exact scanBack_stop _ _ 3 _ (by unfold UTFMax; omega) (by rw [hga]; exact ha)

/-- A well-formed three-byte sequence at the end of a text is read backwards as it
is read forwards. -/
theorem lastRune_three (q : Bytes) (a b c : Nat) (ha : RuneStart a = true)
    (hb : RuneStart b = false) (hc : 0x80 ≤ c)
    (hd : (DecodeRune [a, b, c]).2 = 3) : lastRune (q ++ [a, b, c]) = DecodeRune [a, b, c] := by
  have hlen : (q ++ [a, b, c]).length = q.length + 3 := by simp
  have hga : (q ++ [a, b, c]).getD q.length 0 = a := getD_append_right q [a, b, c] 0
  have hgb : (q ++ [a, b, c]).getD (q.length + 1) 0 = b := getD_append_right q [a, b, c] 1
  have hgc : (q ++ [a, b, c]).getD (q.length + 2) 0 = c := getD_append_right q [a, b, c] 2
  rw [decodeLast_eq (q ++ [a, b, c]) (by omega)
    (by rw [hlen, show q.length + 3 - 1 = q.length + 2 by omega, hgc]; unfold RuneSelf; omega)
    q.length]
  · rw [hlen]
    rw [show q.length + 3 - q.length = 3 by omega, List.drop_left]
    rw [List.take_of_length_le (by simp), hd, if_neg (by simp)]
  · rw [hlen, if_neg (by omega), show q.length + 3 - 2 = q.length + 1 by omega]
    rw [show UTFMax = 3 + 1 from rfl, scanBack_step _ _ 3 _ (by omega) (by rw [hgb]; exact hb)]
    exact scanBack_stop _ _ 2 _ (by omega) (by rw [hga]; exact ha)

/-- An encoding of the table at the end of a text is read backwards as a
white-space rune of its own length. -/
theorem lastRune_spaceEncoding (e : Bytes) (he : e ∈ spaceEncodings) (q : Bytes) :
    IsSpace (lastRune (q ++ e)).1 = true ∧ (lastRune (q ++ e)).2 = e.length := by
  simp only [spaceEncodings, List.mem_cons, List.mem_singleton, List.not_mem_nil, or_false] at he
  rcases he with rfl | rfl | rfl | rfl | rfl | rfl | rfl | rfl | rfl | rfl | rfl | rfl | rfl |
    rfl | rfl | rfl | rfl | rfl | rfl | rfl | rfl | rfl | rfl | rfl | rfl
  iterate 6
    rcases lastRune_cases q _ with ⟨_, h⟩ | ⟨h, _⟩ | ⟨h, _⟩
    · rw [h]; exact ⟨rfl, rfl⟩
    · exact absurd h (by norm_num)
    · exact absurd h (by norm_num)
  iterate 2
    rw [lastRune_two q _ _ (by rfl) (by norm_num) (by rfl)]; exact ⟨rfl, rfl⟩
  all_goals
    rw [lastRune_three q _ _ _ (by rfl) (by rfl) (by norm_num) (by rfl)]; exact ⟨rfl, rfl⟩

theorem lastIndexFuncLoop_none (fuel : Nat) :
    ∀ p : Bytes, p.length ≤ fuel →
      lastIndexFuncLoop IsSpace false fuel p = none → SpaceSeq p := by
  induction fuel with
  | zero =>
    intro p hp _
    have : p = [] := List.length_eq_zero.1 (Nat.le_zero.1 hp)
    subst this
    exact spaceSeq_nil
  | succ n ih =>
    intro p hp h
    rcases List.eq_nil_or_concat p with rfl | ⟨q, c, rfl⟩
    · exact spaceSeq_nil
    rw [List.concat_eq_append] at hp h ⊢
    have hsz := lastRune_size q c
    simp only [lastIndexFuncLoop] at h
    rw [if_neg (by simp)] at h
    cases hsp : IsSpace (lastRune (q ++ [c])).1 with
    | false => simp [hsp] at h
    | true =>
      simp only [hsp, Bool.true_eq_false, if_false] at h
      obtain ⟨e, he, q', hq, hlen⟩ := lastRune_space_suffix _ hsp
      rw [hlen, hq] at h
      rw [List.length_append, Nat.add_sub_cancel, List.take_left] at h
      rw [hq]
      have hq' : q'.length ≤ n := by
        have := congrArg List.length hq
        have hne := spaceEncoding_ne_nil e he
        have : 0 < e.length := List.length_pos.2 hne
        simp only [List.length_append, List.length_singleton] at *
        omega
      exact spaceSeq_append _ _ (ih q' hq' h) (spaceSeq_encoding e he)

/-- Where `lastIndexFunc` stops: a run of white space comes after, and the rune
that ends there is not white space. -/
theorem lastIndexFuncLoop_some (fuel : Nat) :
    ∀ (p : Bytes) (i : Nat), p.length ≤ fuel →
      lastIndexFuncLoop IsSpace false fuel p = some i →
      ∃ t b, p = t ++ b ∧ t ≠ [] ∧ SpaceSeq b ∧ IsSpace (lastRune t).1 = false ∧
        i + (lastRune t).2 = t.length := by
  induction fuel with
  | zero => intro p i _ h; simp [lastIndexFuncLoop] at h
  | succ n ih =>
    intro p i hp h
    rcases List.eq_nil_or_concat p with rfl | ⟨q, c, rfl⟩
    · simp [lastIndexFuncLoop] at h
    rw [List.concat_eq_append] at hp h ⊢
    have hsz := lastRune_size q c
    simp only [lastIndexFuncLoop] at h
    rw [if_neg (by simp)] at h
    cases hsp : IsSpace (lastRune (q ++ [c])).1 with
    | false =>
      simp only [hsp, if_true, Option.some.injEq] at h
      refine ⟨q ++ [c], [], by simp, by simp, spaceSeq_nil, hsp, ?_⟩
      omega
    | true =>
      simp only [hsp, Bool.true_eq_false, if_false] at h
      obtain ⟨e, he, q', hq, hlen⟩ := lastRune_space_suffix _ hsp
      rw [hlen, hq] at h
      rw [List.length_append, Nat.add_sub_cancel, List.take_left] at h
      have hq' : q'.length ≤ n := by
        have := congrArg List.length hq
        have hne := spaceEncoding_ne_nil e he
        have : 0 < e.length := List.length_pos.2 hne
        simp only [List.length_append, List.length_singleton] at *
        omega
      obtain ⟨t, b, h1, h2, h3, h4, h5⟩ := ih q' i hq' h
      refine ⟨t, b ++ e, ?_, h2, spaceSeq_append _ _ h3 (spaceSeq_encoding e he), h4, h5⟩
      rw [hq, h1, List.append_assoc]

/-- A sequence of width two or more starts with a byte that is not ASCII. -/
theorem decode_head_ge (s : Bytes) (h : 2 ≤ (DecodeRune s).2) :
    ∃ c t, s = c :: t ∧ 0x80 ≤ c := by
  rcases s with _ | ⟨p0, t⟩
  · simp [DecodeRune] at h
  refine ⟨p0, t, rfl, ?_⟩
  have hd := decoded_cons p0 t
  generalize DecodeRune (p0 :: t) = d at hd h
  generalize hs : p0 :: t = s at hd
  cases hd with
  | invalid => simp at h
  | one => simp at h
  | two p0' b1 t' h1 => simp only [List.cons.injEq] at hs; omega
  | three p0' b1 b2 t' h1 => simp only [List.cons.injEq] at hs; omega
  | four p0' b1 b2 b3 t' h1 => simp only [List.cons.injEq] at hs; omega

/-- A byte followed by nothing, or by a byte that is not a continuation byte,
is a rune of width one. -/
theorem decode_width_one (c : Nat) (rest : Bytes)
    (h : rest = [] ∨ ∃ x xs, rest = x :: xs ∧ (x < 0x80 ∨ 0xC0 ≤ x)) :
    (DecodeRune (c :: rest)).2 = 1 := by
  have hd := decoded_cons c rest
  generalize DecodeRune (c :: rest) = d at hd
  generalize hs : c :: rest = s at hd
  cases hd with
  | invalid => rfl
  | one => rfl
  | two p0' b1 t' h1 h2 h3 h4 =>
    simp only [List.cons.injEq] at hs
    rcases h with h | ⟨x, xs, h, hx⟩
    · rw [h] at hs; simp at hs
    · rw [h] at hs; simp only [List.cons.injEq] at hs; omega
  | three p0' b1 b2 t' h1 h2 h3 h4 h5 h6 =>
    have hlo := acceptLo_ge p0'
    have hhi := acceptHi_le p0'
    simp only [List.cons.injEq] at hs
    rcases h with h | ⟨x, xs, h, hx⟩
    · rw [h] at hs; simp at hs
    · rw [h] at hs; simp only [List.cons.injEq] at hs; omega
  | four p0' b1 b2 b3 t' h1 h2 h3 h4 h5 h6 h7 h8 =>
    have hlo := acceptLo_ge p0'
    have hhi := acceptHi_le p0'
    simp only [List.cons.injEq] at hs
    rcases h with h | ⟨x, xs, h, hx⟩
    · rw [h] at hs; simp at hs
    · rw [h] at hs; simp only [List.cons.injEq] at hs; omega

theorem spaceSeq_head_shape (b : Bytes) (hb : SpaceSeq b) :
    b = [] ∨ ∃ x xs, b = x :: xs ∧ (x < 0x80 ∨ 0xC0 ≤ x) := by
  rcases b with _ | ⟨x, xs⟩
  · left; rfl
  · right; exact ⟨x, xs, rfl, spaceSeq_head_byte x xs hb⟩

/-- The index `TrimRightFunc` cuts at is the end of the rune `lastIndexFunc`
found. -/
theorem trimRight_width (t b : Bytes) (i : Nat) (ht : t ≠ []) (hb : SpaceSeq b)
    (hi : i + (lastRune t).2 = t.length) :
    (if (t ++ b).getD i 0 ≥ RuneSelf then i + (DecodeRune ((t ++ b).drop i)).2 else i + 1) =
      t.length := by
  rcases List.eq_nil_or_concat t with rfl | ⟨q, c, rfl⟩
  · exact absurd rfl ht
  rw [List.concat_eq_append] at hi ht ⊢
  rcases lastRune_cases q c with ⟨hc, h0⟩ | ⟨hc, h0⟩ | ⟨hc, a, e, h1, h2, h3, h4⟩
  · rw [h0] at hi
    simp only [List.length_append, List.length_singleton] at hi ⊢
    have hiq : i = q.length := by omega
    subst hiq
    have hg : (q ++ [c] ++ b).getD q.length 0 = c := by
      rw [List.append_assoc]; exact getD_append_right q ([c] ++ b) 0
    rw [hg, if_neg (by unfold RuneSelf; omega)]
  · rw [h0] at hi
    simp only [List.length_append, List.length_singleton] at hi ⊢
    have hiq : i = q.length := by omega
    subst hiq
    have hg : (q ++ [c] ++ b).getD q.length 0 = c := by
      rw [List.append_assoc]; exact getD_append_right q ([c] ++ b) 0
    rw [hg, if_pos (by unfold RuneSelf; omega)]
    rw [List.append_assoc, List.drop_left, List.singleton_append,
      decode_width_one c b (spaceSeq_head_shape b hb)]
  · rw [h3, h4, h1] at hi
    rw [h1]
    simp only [List.length_append] at hi ⊢
    have hia : i = a.length := by omega
    subst hia
    obtain ⟨x, xs, rfl, hx⟩ := decode_head_ge e (by omega)
    have hg : (a ++ x :: xs ++ b).getD a.length 0 = x := by
      rw [List.append_assoc]; exact getD_append_right a (x :: xs ++ b) 0
    rw [hg, if_pos (by unfold RuneSelf; omega)]
    rw [List.append_assoc, List.drop_left]
    rw [decode_ext (x :: xs) (x :: xs ++ b) (by omega) (by rw [h4]; simp), h4]

/-- `TrimRightFunc` cuts a run of white space off the end; what is left is empty
or ends with a rune that is not white space. -/
theorem TrimRightFunc_spec (u : Bytes) :
    ∃ b, u = TrimRightFunc u IsSpace ++ b ∧ SpaceSeq b ∧
      (TrimRightFunc u IsSpace = [] ∨ IsSpace (lastRune (TrimRightFunc u IsSpace)).1 = false) := by
  unfold TrimRightFunc lastIndexFunc
  cases h : lastIndexFuncLoop IsSpace false u.length u with
  | none =>
    refine ⟨u, by simp, lastIndexFuncLoop_none _ _ (le_refl _) h, Or.inl (by simp)⟩
  | some i =>
    obtain ⟨t, b, h1, h2, h3, h4, h5⟩ := lastIndexFuncLoop_some _ _ _ (le_refl _) h
    have hw := trimRight_width t b i h2 h3 h5
    dsimp only
    have key : (if u.getD i 0 ≥ RuneSelf then List.take (i + (DecodeRune (List.drop i u)).2) u
        else List.take (i + 1) u) = t := by
      rw [h1]
      split_ifs with hc
      · rw [if_pos hc] at hw; rw [hw, List.take_left]
      · rw [if_neg hc] at hw; rw [hw, List.take_left]
    rw [key]
    exact ⟨b, h1, h3, Or.inr h4⟩

/-! ## Trimming -/

theorem no_space_prefix_iff (t : Bytes) :
    (∀ e ∈ spaceEncodings, ¬ e <+: t) ↔ IsSpace (DecodeRune t).1 = false := by
  constructor
  · intro h
    cases hsp : IsSpace (DecodeRune t).1 with
    | false => rfl
    | true =>
      obtain ⟨e, he, r, hr, _⟩ := decode_space_prefix t hsp
      exact absurd ⟨r, hr.symm⟩ (h e he)
  · rintro h e he ⟨r, rfl⟩
    rw [(decode_spaceEncoding e he r).1] at h
    exact absurd h (by decide)

theorem no_space_suffix_iff (t : Bytes) :
    (∀ e ∈ spaceEncodings, ¬ e <:+ t) ↔ IsSpace (lastRune t).1 = false := by
  constructor
  · intro h
    cases hsp : IsSpace (lastRune t).1 with
    | false => rfl
    | true =>
      obtain ⟨e, he, q, hq, _⟩ := lastRune_space_suffix t hsp
      exact absurd ⟨q, hq.symm⟩ (h e he)
  · rintro h e he ⟨q, rfl⟩
    rw [(lastRune_spaceEncoding e he q).1] at h
    exact absurd h (by decide)

theorem trimmed_nil : Trimmed [] := by
  constructor
  · intro e he hp
    exact spaceEncoding_ne_nil e he (List.prefix_nil.1 hp)
  · intro e he hp
    exact spaceEncoding_ne_nil e he (List.suffix_nil.1 hp)

/-- `TrimFunc` with `unicode.IsSpace` meets the contract of trimming. -/
theorem TrimFunc_spec (s : Bytes) : TrimSpec s (TrimFunc s IsSpace) := by
  obtain ⟨a, ha, hsa, hl⟩ := TrimLeftFunc_spec s
  obtain ⟨b, hb, hsb, hr⟩ := TrimRightFunc_spec (TrimLeftFunc s IsSpace)
  unfold TrimFunc
  refine ⟨a, b, ?_, hsa, hsb, ?_, ?_⟩
  · rw [List.append_assoc, ← hb]; exact ha
  · intro e he hp
    have hpu : e <+: TrimLeftFunc s IsSpace := by
      rw [hb]; exact hp.trans (List.prefix_append _ _)
    rcases hl with hl | hl
    · rw [hl] at hpu
      exact spaceEncoding_ne_nil e he (List.prefix_nil.1 hpu)
    · exact (no_space_prefix_iff _).2 hl e he hpu
  · rcases hr with hr | hr
    · rw [hr]; exact trimmed_nil.2
    · exact (no_space_suffix_iff _).2 hr

theorem TrimLeftFunc_trimmed (t : Bytes) (h : ∀ e ∈ spaceEncodings, ¬ e <+: t) :
    TrimLeftFunc t IsSpace = t := by
  have hsp := (no_space_prefix_iff t).1 h
  unfold TrimLeftFunc indexFunc
  cases t with
  | nil => rfl
  | cons c r =>
    simp only [List.length_cons, indexFuncLoop, headRune_eq_DecodeRune, hsp, if_true]
    rfl

theorem TrimRightFunc_trimmed (t : Bytes) (h : ∀ e ∈ spaceEncodings, ¬ e <:+ t) :
    TrimRightFunc t IsSpace = t := by
  have hsp := (no_space_suffix_iff t).1 h
  unfold TrimRightFunc lastIndexFunc
  rcases List.eq_nil_or_concat t with rfl | ⟨q, c, rfl⟩
  · rfl
  rw [List.concat_eq_append] at hsp ⊢
  have hsz := lastRune_size q c
  have hloop : lastIndexFuncLoop IsSpace false (q ++ [c]).length (q ++ [c]) =
      some ((q ++ [c]).length - (lastRune (q ++ [c])).2) := by
    rw [show (q ++ [c]).length = q.length + 1 by simp]
    simp only [lastIndexFuncLoop]
    rw [if_neg (by simp)]
    simp only [hsp, if_true]
    simp
  rw [hloop]
  dsimp only
  have hw := trimRight_width (q ++ [c]) [] ((q ++ [c]).length - (lastRune (q ++ [c])).2)
    (by simp) spaceSeq_nil (by omega)
  rw [List.append_nil] at hw
  split_ifs with hc
  · rw [if_pos hc] at hw; rw [hw, List.take_length]
  · rw [if_neg hc] at hw; rw [hw, List.take_length]

/-- `TrimFunc` with `unicode.IsSpace` leaves a trimmed text alone. -/
theorem TrimFunc_trimmed (t : Bytes) (h : Trimmed t) : TrimFunc t IsSpace = t := by
  unfold TrimFunc
  rw [TrimLeftFunc_trimmed t h.1, TrimRightFunc_trimmed t h.2]

theorem TrimFunc_spaceSeq (s : Bytes) (h : SpaceSeq s) : TrimFunc s IsSpace = [] := by
  have hl : TrimLeftFunc s IsSpace = [] := by
    unfold TrimLeftFunc indexFunc
    rw [(indexFuncLoop_none_iff _ _ _ (le_refl _)).2 h]
  unfold TrimFunc
  rw [hl]
  rfl

theorem decode_ascii_not_space (c : Nat) (t : Bytes) (hc : c < 0x80)
    (hs : asciiSpace c = false) : IsSpace (DecodeRune (c :: t)).1 = false := by
  rw [decode_one c t hc]
  dsimp only
  rw [isSpace_ascii c hc, hs]

theorem take_succ_getD (u : Bytes) (n : Nat) (h : n < u.length) :
    u.take (n + 1) = u.take n ++ [u.getD n 0] := by
  rw [List.take_succ, List.getD_eq_getElem?_getD, List.getElem?_eq_getElem h]
  rfl

theorem drop_getD_cons (u : Bytes) (n : Nat) (h : n < u.length) :
    u.drop n = u.getD n 0 :: u.drop (n + 1) := by
  rw [List.getD_eq_getElem?_getD, List.getElem?_eq_getElem h]
  exact List.drop_eq_getElem_cons h

/-- The second loop of `TrimSpace`, started after a run of white space at the end
of a text whose first byte is ASCII and not white space. -/
theorem trimSpaceStop_spec (u : Bytes) (hu : IsSpace (DecodeRune u).1 = false) :
    ∀ n, n ≤ u.length → SpaceSeq (u.drop n) →
      ∃ b, u = trimSpaceStop u n ++ b ∧ SpaceSeq b ∧ Trimmed (trimSpaceStop u n) := by
  have hpre := (no_space_prefix_iff u).2 hu
  intro n
  induction n with
  | zero =>
    intro _ hs
    exact ⟨u, by simp [trimSpaceStop], by simpa using hs, by simpa [trimSpaceStop] using trimmed_nil⟩
  | succ n ih =>
    intro hn hs
    have hn' : n < u.length := by omega
    simp only [trimSpaceStop]
    split_ifs with h1 h2
    · obtain ⟨a, b, h3, h4, h5, h6⟩ := TrimFunc_spec (u.take (n + 1))
      have ha : a = [] := by
        rcases spaceSeq_cases a h4 with ha | ⟨e, he, r, ha, _⟩
        · exact ha
        · exfalso
          apply hpre e he
          refine ⟨r ++ TrimFunc (u.take (n + 1)) IsSpace ++ b ++ u.drop (n + 1), ?_⟩
          have := List.take_append_drop (n + 1) u
          rw [h3, ha] at this
          simpa only [List.append_assoc] using this
      subst ha
      refine ⟨b ++ u.drop (n + 1), ?_, spaceSeq_append _ _ h5 hs, h6⟩
      have := List.take_append_drop (n + 1) u
      rw [h3] at this
      rw [← List.append_assoc]
      simpa using this.symm
    · apply ih (by omega)
      rw [drop_getD_cons u n hn']
      exact spaceSeq_append [u.getD n 0] _ (spaceSeq_encoding _ (asciiSpace_mem _ h2)) hs
    · refine ⟨u.drop (n + 1), (List.take_append_drop _ _).symm, hs, ?_, ?_⟩
      · intro e he hp
        exact hpre e he (hp.trans (List.take_prefix _ _))
      · intro e he hp
        rw [take_succ_getD u n hn'] at hp
        rcases List.eq_nil_or_concat e with rfl | ⟨q, c, rfl⟩
        · exact spaceEncoding_ne_nil _ he rfl
        rw [List.concat_eq_append] at hp he
        obtain ⟨r, hr⟩ := hp
        have hr' := congrArg List.reverse hr
        simp only [List.reverse_append, List.reverse_cons, List.reverse_nil, List.nil_append,
          List.singleton_append, List.cons_append, List.cons.injEq] at hr'
        have hc : c = u.getD n 0 := hr'.1
        have hlt : c < 0x80 := by
          rw [hc]; unfold RuneSelf at h1; omega
        have := (spaceEncoding_ascii_last q c he hlt).2
        rw [hc] at this
        exact h2 this

/-- `bytes.TrimSpace` meets the contract of trimming. -/
theorem TrimSpace_spec (s : Bytes) : TrimSpec s (TrimSpace s) := by
  induction s with
  | nil => exact ⟨[], [], rfl, spaceSeq_nil, spaceSeq_nil, trimmed_nil⟩
  | cons c t ih =>
    simp only [TrimSpace]
    split_ifs with h1 h2
    · exact TrimFunc_spec _
    · obtain ⟨a, b, h3, h4, h5, h6⟩ := ih
      refine ⟨c :: a, b, congrArg (List.cons c) h3, ?_, h5, h6⟩
      exact spaceSeq_append [c] a (spaceSeq_encoding _ (asciiSpace_mem _ h2)) h4
    · have hc : c < 0x80 := by unfold RuneSelf at h1; omega
      have hu := decode_ascii_not_space c t hc (by simpa using h2)
      obtain ⟨b, h3, h4, h5⟩ := trimSpaceStop_spec (c :: t) hu (t.length + 1) (by simp)
        (by simpa using spaceSeq_nil)
      exact ⟨[], b, by simpa using h3, spaceSeq_nil, h4, h5⟩

/-- `bytes.TrimSpace` leaves a trimmed text alone. -/
theorem TrimSpace_trimmed (t : Bytes) (h : Trimmed t) : TrimSpace t = t := by
  cases t with
  | nil => rfl
  | cons c r =>
    simp only [TrimSpace]
    split_ifs with h1 h2
    · exact TrimFunc_trimmed _ h
    · exact absurd ⟨r, rfl⟩ (h.1 [c] (asciiSpace_mem c h2))
    · rcases List.eq_nil_or_concat (c :: r) with h0 | ⟨q, d, hq⟩
      · exact absurd h0 (by simp)
      rw [List.concat_eq_append] at hq
      have hlen : r.length = q.length := by
        have := congrArg List.length hq
        simpa using this
      have hg : (c :: r).getD r.length 0 = d := by
        rw [hq, hlen]; exact getD_concat_length q d
      have htake : (c :: r).take (r.length + 1) = c :: r := by
        apply List.take_of_length_le; simp
      simp only [trimSpaceStop]
      rw [hg, htake]
      split_ifs with h3 h4
      · exact TrimFunc_trimmed _ h
      · exact absurd ⟨q, hq.symm⟩ (h.2 [d] (asciiSpace_mem d h4))
      · rfl

/-- `bytes.TrimSpace` returns the empty text exactly on runs of white space. -/
theorem TrimSpace_eq_nil_iff (s : Bytes) : TrimSpace s = [] ↔ SpaceSeq s := by
  constructor
  · intro h
    obtain ⟨a, b, h1, h2, h3, _⟩ := TrimSpace_spec s
    rw [h, List.append_nil] at h1
    rw [h1]
    exact spaceSeq_append a b h2 h3
  · intro h
    induction s with
    | nil => rfl
    | cons c t ih =>
      simp only [TrimSpace]
      split_ifs with h1 h2
      · exact TrimFunc_spaceSeq _ h
      · apply ih
        rcases spaceSeq_cases _ h with h0 | ⟨e, he, r, hr, hsr⟩
        · exact absurd h0 (by simp)
        · obtain ⟨x, xs, rfl, _⟩ := spaceEncoding_head e he
          simp only [List.cons_append, List.cons.injEq] at hr
          obtain ⟨rfl, rfl⟩ := hr
          have := (spaceEncoding_ascii_head c xs he (asciiSpace_lt c h2)).1
          subst this
          simpa using hsr
      · exfalso
        have hc : c < 0x80 := by unfold RuneSelf at h1; omega
        have hu := decode_ascii_not_space c t hc (by simpa using h2)
        rw [spaceSeq_head _ h (by simp)] at hu
        exact absurd hu (by decide)

/-- Trimming twice is trimming once. -/
theorem TrimSpace_idem (s : Bytes) : TrimSpace (TrimSpace s) = TrimSpace s := by
  obtain ⟨_, _, _, _, _, h⟩ := TrimSpace_spec s
  exact TrimSpace_trimmed _ h

/-! ## Splitting at newlines -/

theorem ascii_newline : ascii "\n" = [0x0A] := by decide

theorem linesOf_ne_nil (s : Bytes) : linesOf s ≠ [] := by
  cases s with
  | nil => simp [linesOf]
  | cons c t =>
    simp only [linesOf]
    split_ifs
    · simp
    · split <;> simp

theorem linesOf_length_pos (s : Bytes) : 0 < (linesOf s).length :=
  List.length_pos.2 (linesOf_ne_nil s)

theorem Index_newline_nil : Index [] [0x0A] = none := by simp [Index]

theorem Index_newline_cons (c : Nat) (t : Bytes) :
    Index (c :: t) [0x0A] = if c = 0x0A then some 0 else (Index t [0x0A]).map (· + 1) := by
  simp only [Index]
  by_cases h : c = 0x0A
  · subst h; simp [List.isPrefixOf]
  · have : ([0x0A] : Bytes).isPrefixOf (c :: t) = false := by
      simp [List.isPrefixOf]; exact fun h' => h h'.symm
    rw [this, if_neg h]
    simp

theorem Index_newline_none (s : Bytes) (h : Index s [0x0A] = none) : linesOf s = [s] := by
  induction s with
  | nil => rfl
  | cons c t ih =>
    rw [Index_newline_cons] at h
    split_ifs at h with hc
    have ht : Index t [0x0A] = none := by
      cases hi : Index t [0x0A] with
      | none => rfl
      | some m => rw [hi] at h; simp at h
    simp only [linesOf, if_neg hc, ih ht]

theorem Index_newline_some (s : Bytes) (m : Nat) (h : Index s [0x0A] = some m) :
    linesOf s = s.take m :: linesOf (s.drop (m + 1)) ∧ m < s.length := by
  induction s generalizing m with
  | nil => rw [Index_newline_nil] at h; exact absurd h (by simp)
  | cons c t ih =>
    rw [Index_newline_cons] at h
    split_ifs at h with hc
    · simp only [Option.some.injEq] at h
      subst h
      simp [linesOf, hc]
    · cases hi : Index t [0x0A] with
      | none => rw [hi] at h; simp at h
      | some k =>
        rw [hi] at h
        simp only [Option.map_some', Option.some.injEq] at h
        subst h
        obtain ⟨h1, h2⟩ := ih k hi
        refine ⟨?_, by simp; omega⟩
        simp only [linesOf, if_neg hc, h1, List.take_succ_cons, List.drop_succ_cons]

theorem countLoop_newline (fuel : Nat) :
    ∀ s : Bytes, s.length ≤ fuel → countLoop [0x0A] fuel s + 1 = (linesOf s).length := by
  induction fuel with
  | zero =>
    intro s hs
    have : s = [] := List.length_eq_zero.1 (Nat.le_zero.1 hs)
    subst this
    rfl
  | succ n ih =>
    intro s hs
    simp only [countLoop]
    cases hi : Index s [0x0A] with
    | none => simp [Index_newline_none s hi]
    | some m =>
      obtain ⟨h1, h2⟩ := Index_newline_some s m hi
      simp only [List.length_singleton]
      rw [h1, List.length_cons, ih _ (by rw [List.length_drop]; omega)]

theorem genSplitLoop_newline (n : Nat) :
    ∀ s : Bytes, n + 1 = (linesOf s).length → genSplitLoop [0x0A] n s = linesOf s := by
  induction n with
  | zero =>
    intro s hs
    simp only [genSplitLoop]
    cases hi : Index s [0x0A] with
    | none => exact (Index_newline_none s hi).symm
    | some m =>
      obtain ⟨h1, _⟩ := Index_newline_some s m hi
      have := linesOf_length_pos (s.drop (m + 1))
      rw [h1, List.length_cons] at hs
      omega
  | succ n ih =>
    intro s hs
    simp only [genSplitLoop]
    cases hi : Index s [0x0A] with
    | none => exact (Index_newline_none s hi).symm
    | some m =>
      obtain ⟨h1, _⟩ := Index_newline_some s m hi
      simp only [List.length_singleton]
      rw [h1, List.length_cons] at hs
      rw [h1, ih _ (by omega)]

/-- `bytes.Split` on the newline returns the lines of the text. -/
theorem Split_newline (s : Bytes) : Split s [0x0A] = linesOf s := by
  unfold Split Count
  rw [if_neg (by simp)]
  exact genSplitLoop_newline _ s (countLoop_newline _ s (le_refl _))

/-! ## `splitByDelimiter` -/

theorem splitByDelimiter_fold (pieces : List Bytes) :
    ∀ acc : Slice Bytes,
      pieces.foldl
          (fun parts part =>
            let trimmed := TrimSpace part
            if trimmed.length > 0 then parts.append trimmed else parts) acc =
        if (pieces.map TrimSpace).filter (fun l => decide (l ≠ [])) = [] then acc
        else Slice.ofList (acc.toList ++ (pieces.map TrimSpace).filter (fun l => decide (l ≠ []))) := by
  induction pieces with
  | nil => intro acc; simp
  | cons p rest ih =>
    intro acc
    rw [List.foldl_cons, ih]
    by_cases hp : TrimSpace p = []
    · have hf : List.filter (fun l => decide (l ≠ [])) (List.map TrimSpace (p :: rest)) =
          List.filter (fun l => decide (l ≠ [])) (List.map TrimSpace rest) := by
        rw [List.map_cons, List.filter_cons_of_neg (by simp [hp])]
      rw [hf]
      simp only [hp, List.length_nil, gt_iff_lt, lt_self_iff_false, if_false]
    · have hpos : (TrimSpace p).length > 0 := List.length_pos.2 hp
      have hf : List.filter (fun l => decide (l ≠ [])) (List.map TrimSpace (p :: rest)) =
          TrimSpace p :: List.filter (fun l => decide (l ≠ [])) (List.map TrimSpace rest) := by
        rw [List.map_cons, List.filter_cons_of_pos (by simp [hp])]
      rw [hf, if_neg (List.cons_ne_nil _ _)]
      simp only [hpos, if_true]
      split_ifs with h1
      · rw [h1]; rfl
      · simp only [Slice.append, Slice.toList, List.append_assoc, List.singleton_append]

/-- `splitByDelimiter` on the newline: `nil` when no line is left after trimming,
otherwise the trimmed non-blank lines. -/
theorem splitByDelimiter_eq (text : Bytes) :
    splitByDelimiter text (ascii "\n") =
      if trimmedNonBlankLines text = [] then Slice.nil
      else Slice.ofList (trimmedNonBlankLines text) := by
  unfold splitByDelimiter trimmedNonBlankLines
  rw [ascii_newline, Split_newline, splitByDelimiter_fold]
  simp [Slice.toList]

theorem splitByDelimiter_toList (text : Bytes) :
    (splitByDelimiter text (ascii "\n")).toList = trimmedNonBlankLines text := by
  rw [splitByDelimiter_eq]
  split_ifs with h
  · rw [h]; rfl
  · rfl

/-! ## Lines of a run of white space -/

theorem linesOf_append_no_newline (e t : Bytes) (h : 0x0A ∉ e) :
    ∃ hd tl, linesOf t = hd :: tl ∧ linesOf (e ++ t) = (e ++ hd) :: tl := by
  induction e with
  | nil =>
    obtain ⟨hd, tl, h1⟩ := List.exists_cons_of_ne_nil (linesOf_ne_nil t)
    exact ⟨hd, tl, h1, by simpa using h1⟩
  | cons c r ih =>
    have hc : c ≠ 0x0A := fun hc => h (by simp [hc])
    have hr : 0x0A ∉ r := fun hr => h (List.mem_cons_of_mem _ hr)
    obtain ⟨hd, tl, h1, h2⟩ := ih hr
    refine ⟨hd, tl, h1, ?_⟩
    show linesOf (c :: (r ++ t)) = (c :: (r ++ hd)) :: tl
    rw [linesOf, if_neg hc, h2]

theorem spaceEncoding_newline (e : Bytes) (he : e ∈ spaceEncodings) : e = [0x0A] ∨ 0x0A ∉ e := by
  simp only [spaceEncodings, List.mem_cons, List.mem_singleton, List.not_mem_nil, or_false] at he
  rcases he with rfl | rfl | rfl | rfl | rfl | rfl | rfl | rfl | rfl | rfl | rfl | rfl | rfl |
    rfl | rfl | rfl | rfl | rfl | rfl | rfl | rfl | rfl | rfl | rfl | rfl <;> decide

/-- Every line of a run of white space is a run of white space. -/
theorem spaceSeq_linesOf (s : Bytes) (h : SpaceSeq s) : ∀ l ∈ linesOf s, SpaceSeq l := by
  obtain ⟨es, hes, rfl⟩ := h
  induction es with
  | nil =>
    intro l hl
    simp [linesOf] at hl
    subst hl
    exact spaceSeq_nil
  | cons e rest ih =>
    have ih' := ih (fun x hx => hes x (List.mem_cons_of_mem _ hx))
    have he := hes e (List.mem_cons_self _ _)
    intro l hl
    rw [List.flatten_cons] at hl
    rcases spaceEncoding_newline e he with rfl | hno
    · simp only [List.singleton_append, linesOf, if_true, List.mem_cons] at hl
      rcases hl with rfl | hl
      · exact spaceSeq_nil
      · exact ih' l hl
    · obtain ⟨hd, tl, h1, h2⟩ := linesOf_append_no_newline e rest.flatten hno
      rw [h2] at hl
      rcases List.mem_cons.1 hl with rfl | hl
      · exact spaceSeq_append _ _ (spaceSeq_encoding e he) (ih' hd (by rw [h1]; simp))
      · exact ih' l (by rw [h1]; exact List.mem_cons_of_mem _ hl)

/-- A text of white space only has no trimmed non-blank line. -/
theorem trimmedNonBlankLines_spaceSeq (s : Bytes) (h : SpaceSeq s) :
    trimmedNonBlankLines s = [] := by
  unfold trimmedNonBlankLines
  rw [List.filter_eq_nil_iff]
  intro x hx
  obtain ⟨l, hl, rfl⟩ := List.mem_map.1 hx
  simp [(TrimSpace_eq_nil_iff l).2 (spaceSeq_linesOf s h l hl)]

theorem trimmedNonBlankLines_count (l : List Bytes) (e : Bytes) (he : e ≠ []) :
    ((l.map TrimSpace).filter (fun x => decide (x ≠ []))).count e =
      l.countP (fun x => decide (TrimSpace x = e)) := by
  induction l with
  | nil => rfl
  | cons a t ih =>
    rw [List.map_cons, List.countP_cons]
    by_cases ha : TrimSpace a = []
    · rw [List.filter_cons_of_neg (by simp [ha]), ih]
      have : ¬ (TrimSpace a = e) := by rw [ha]; exact fun h => he h.symm
      simp [this]
    · rw [List.filter_cons_of_pos (by simp [ha]), List.count_cons, ih]
      by_cases hae : TrimSpace a = e
      · simp [hae]
      · simp [hae]

theorem trimmedNonBlankLines_length (l : List Bytes) :
    ((l.map TrimSpace).filter (fun x => decide (x ≠ []))).length =
      l.countP (fun x => !whitespaceOnly x) := by
  induction l with
  | nil => rfl
  | cons a t ih =>
    rw [List.map_cons, List.countP_cons]
    by_cases ha : TrimSpace a = []
    · have hw : whitespaceOnly a = true :=
        (whitespaceOnly_iff a).2 ((TrimSpace_eq_nil_iff a).1 ha)
      rw [List.filter_cons_of_neg (by simp [ha]), ih]
      simp [hw]
    · have hw : whitespaceOnly a = false := by
        cases h : whitespaceOnly a with
        | false => rfl
        | true => exact absurd ((TrimSpace_eq_nil_iff a).2 ((whitespaceOnly_iff a).1 h)) ha
      rw [List.filter_cons_of_pos (by simp [ha]), List.length_cons, ih]
      simp [hw]

/-- A text made of bytes of `asciiSpace` only is white space only. -/
theorem whitespaceOnly_of_asciiSpace (s : Bytes) (h : ∀ b ∈ s, asciiSpace b = true) :
    whitespaceOnly s = true := by
  rw [whitespaceOnly_iff]
  induction s with
  | nil => exact spaceSeq_nil
  | cons c t ih =>
    exact spaceSeq_append [c] t
      (spaceSeq_encoding _ (asciiSpace_mem c (h c (List.mem_cons_self _ _))))
      (ih (fun b hb => h b (List.mem_cons_of_mem _ hb)))

theorem trimmed_ascii_ends (e : Bytes) (h : Trimmed e) (c : Nat) (hc : asciiSpace c = true) :
    e.head? ≠ some c ∧ e.getLast? ≠ some c := by
  constructor
  · intro hh
    cases e with
    | nil => simp at hh
    | cons x xs =>
      simp only [List.head?_cons, Option.some.injEq] at hh
      subst hh
      exact h.1 [x] (asciiSpace_mem x hc) ⟨xs, rfl⟩
  · intro hh
    rcases List.eq_nil_or_concat e with rfl | ⟨q, x, rfl⟩
    · simp at hh
    · rw [List.concat_eq_append] at hh h
      simp only [List.getLast?_append, List.getLast?_singleton, Option.or,
        Option.some.injEq] at hh
      subst hh
      exact h.2 [x] (asciiSpace_mem x hc) ⟨q, rfl⟩

/-- C1: every entry of `splitByDelimiter(text, "\n")` is non-empty, is not white
space only, and is trimmed: no encoding of a white-space rune starts it or ends
it, its first rune read forwards and its last rune read backwards are not white
space, no ASCII white-space byte is its first or last byte, and `TrimSpace`
returns it unchanged. -/
theorem splitByDelimiter_entries_trimmed (text e : Bytes)
    (he : e ∈ (splitByDelimiter text (ascii "\n")).toList) :
    e ≠ [] ∧ whitespaceOnly e = false ∧ Trimmed e ∧ TrimSpace e = e ∧
      IsSpace (headRune e).1 = false ∧ IsSpace (lastRune e).1 = false ∧
      ∀ c, asciiSpace c = true → e.head? ≠ some c ∧ e.getLast? ≠ some c := by
  rw [splitByDelimiter_toList] at he
  unfold trimmedNonBlankLines at he
  obtain ⟨hm, hne⟩ := List.mem_filter.1 he
  have hne' : e ≠ [] := by simpa using hne
  obtain ⟨l, _, rfl⟩ := List.mem_map.1 hm
  obtain ⟨_, _, _, _, _, ht⟩ := TrimSpace_spec l
  have hid := TrimSpace_trimmed _ ht
  refine ⟨hne', ?_, ht, hid, ?_, (no_space_suffix_iff _).1 ht.2, trimmed_ascii_ends _ ht⟩
  · cases hw : whitespaceOnly (TrimSpace l) with
    | false => rfl
    | true =>
      have := (TrimSpace_eq_nil_iff _).2 ((whitespaceOnly_iff _).1 hw)
      rw [hid] at this
      exact absurd this hne'
  · rw [headRune_eq_DecodeRune]
    exact (no_space_prefix_iff _).1 ht.1

theorem splitByDelimiter_entries_trimmed_witness :
    ascii "a b" ∈ (splitByDelimiter (ascii "  a b \n\n c") (ascii "\n")).toList ∧
      (ascii "a b" ≠ [] ∧ whitespaceOnly (ascii "a b") = false ∧ Trimmed (ascii "a b") ∧
        TrimSpace (ascii "a b") = ascii "a b" ∧
        IsSpace (headRune (ascii "a b")).1 = false ∧ IsSpace (lastRune (ascii "a b")).1 = false ∧
        ∀ c, asciiSpace c = true →
          (ascii "a b").head? ≠ some c ∧ (ascii "a b").getLast? ≠ some c) :=
  ⟨by decide,
    splitByDelimiter_entries_trimmed (ascii "  a b \n\n c") (ascii "a b") (by decide)⟩

/-- C9: `splitByDelimiter(text, "\n")` is the specification's list: `bytes.Split`
cuts the text at every newline, and the result holds the trimmed pieces that are
not empty, in their order and with their repetitions.  A non-empty `e` occurs in
the result as often as there are lines that trim to `e`, and the length of the
result is the number of lines that are not white space only. -/
theorem splitByDelimiter_refines_spec (text : Bytes) :
    Split text (ascii "\n") = linesOf text ∧
      (splitByDelimiter text (ascii "\n")).toList = trimmedNonBlankLines text ∧
      (splitByDelimiter text (ascii "\n")).toList.Sublist ((linesOf text).map TrimSpace) ∧
      (∀ e, e ≠ [] → (splitByDelimiter text (ascii "\n")).toList.count e =
        (linesOf text).countP (fun l => decide (TrimSpace l = e))) ∧
      (splitByDelimiter text (ascii "\n")).len =
        (linesOf text).countP (fun l => !whitespaceOnly l) := by
  refine ⟨by rw [ascii_newline, Split_newline], splitByDelimiter_toList text, ?_, ?_, ?_⟩
  · rw [splitByDelimiter_toList]; exact List.filter_sublist _
  · intro e he
    rw [splitByDelimiter_toList]
    exact trimmedNonBlankLines_count _ e he
  · unfold Slice.len
    rw [splitByDelimiter_toList]
    exact trimmedNonBlankLines_length _

/-! ## The handler and its two steps -/

theorem generateImage_log (sv : Services) (d : Bytes) (log : List Call) :
    (generateImage sv d log).2 = log ++ [Call.image (imageRequest d)] := by
  unfold generateImage
  dsimp only
  split
  · rfl
  · split <;> rfl

theorem generateImage_result (sv : Services) (d : Bytes) (log : List Call) :
    (generateImage sv d log).1 = (generateImage sv d []).1 := by
  unfold generateImage
  dsimp only
  split
  · rfl
  · split <;> rfl

theorem splitStoryIntoParts_log (sv : Services) (story : Bytes) (log : List Call) :
    (splitStoryIntoParts sv story log).2 = log ++ [Call.completion (completionRequest story)] := by
  unfold splitStoryIntoParts
  dsimp only
  split
  · rfl
  · split <;> rfl

theorem splitStoryIntoParts_result (sv : Services) (story : Bytes) (log : List Call) :
    (splitStoryIntoParts sv story log).1 = (splitStoryIntoParts sv story []).1 := by
  unfold splitStoryIntoParts
  dsimp only
  split
  · rfl
  · split <;> rfl

/-- The loop runs to its end when every call succeeds. -/
theorem generateLoop_done (sv : Services) (parts : List Bytes) :
    ∀ (images : Slice Bytes) (log : List Call),
      (∀ s ∈ parts, (generateImage sv s []).1.2 = none) →
      ∃ images', generateLoop sv parts images log =
          (LoopExit.done images', log ++ parts.map (fun s => Call.image (imageRequest s))) ∧
        images'.toList = images.toList ++ parts.map (fun s => (generateImage sv s []).1.1) ∧
        (parts = [] → images' = images) := by
  induction parts with
  | nil => intro images log _; exact ⟨images, by simp [generateLoop], by simp, fun _ => rfl⟩
  | cons p rest ih =>
    intro images log h
    have hp : (generateImage sv p log).1.2 = none := by
      rw [generateImage_result]; exact h p (List.mem_cons_self _ _)
    obtain ⟨images', h1, h2, _⟩ := ih (images.append (generateImage sv p log).1.1)
      (generateImage sv p log).2 (fun s hs => h s (List.mem_cons_of_mem _ hs))
    refine ⟨images', ?_, ?_, by simp⟩
    · rw [generateLoop]; simp only [hp]; rw [h1, generateImage_log]; simp
    · rw [h2, generateImage_result]; simp [Slice.append, Slice.toList]

/-- The loop returns at the first failing call. -/
theorem generateLoop_returned (sv : Services) (pre : List Bytes) (sk : Bytes) (post : List Bytes)
    (m : String) :
    ∀ (images : Slice Bytes) (log : List Call),
      (∀ s ∈ pre, (generateImage sv s []).1.2 = none) →
      (generateImage sv sk []).1.2 = some m →
      generateLoop sv (pre ++ sk :: post) images log =
        (LoopExit.returned
          { status := StatusInternalServerError, body := [("error", HValue.str m)] },
          log ++ (pre ++ [sk]).map (fun s => Call.image (imageRequest s))) := by
  induction pre with
  | nil =>
    intro images log _ hk
    have hk' : (generateImage sv sk log).1.2 = some m := by rw [generateImage_result]; exact hk
    simp only [List.nil_append]
    rw [generateLoop]; simp only [hk']; rw [generateImage_log]; simp
  | cons p rest ih =>
    intro images log h hk
    have hp : (generateImage sv p log).1.2 = none := by
      rw [generateImage_result]; exact h p (List.mem_cons_self _ _)
    simp only [List.cons_append]
    rw [generateLoop]; simp only [hp]
    rw [ih _ _ (fun s hs => h s (List.mem_cons_of_mem _ hs)) hk, generateImage_log]; simp

/-- A handler run whose request binds and whose segmentation succeeds is the loop
run on the segments. -/
theorem handleGenerateComic_loop (sv : Services) (body : Option Json) (story : Bytes)
    (segs : Slice Bytes) (hbind : BindJSON body = ({ Story := story }, none))
    (hseg : (splitStoryIntoParts sv story []).1 = (segs, none)) :
    handleGenerateComic sv body =
      match generateLoop sv segs.toList Slice.nil [Call.completion (completionRequest story)] with
      | (LoopExit.returned resp, log) => (resp, log)
      | (LoopExit.done images, log) =>
        ({ status := StatusOK, body := [("images", HValue.strs images)] }, log) := by
  unfold handleGenerateComic
  simp only [hbind, hseg]
  rw [splitStoryIntoParts_log]; rfl

/-- The image prompts of a log made of one completion call followed by one image
call for each element of `l` are the elements of `l`. -/
theorem imagePrompts_calls (req : CompletionRequest) (l : List Bytes) :
    imagePrompts (Call.completion req :: l.map (fun s => Call.image (imageRequest s))) = l := by
  have key : ∀ l : List Bytes,
      imagePrompts (l.map (fun s => Call.image (imageRequest s))) = l := by
    intro l
    induction l with
    | nil => rfl
    | cons a t ih =>
      have : imagePrompts (List.map (fun s => Call.image (imageRequest s)) (a :: t)) =
          a :: imagePrompts (List.map (fun s => Call.image (imageRequest s)) t) := rfl
      rw [this, ih]
  have : imagePrompts (Call.completion req :: l.map (fun s => Call.image (imageRequest s))) =
      imagePrompts (l.map (fun s => Call.image (imageRequest s))) := rfl
  rw [this, key]

/-- Either every image call on `parts` succeeds, or there is a first one that fails. -/
theorem generateImage_first_failure (sv : Services) (parts : List Bytes) :
    (∀ s ∈ parts, (generateImage sv s []).1.2 = none) ∨
      ∃ pre sk post m, parts = pre ++ sk :: post ∧
        (∀ s ∈ pre, (generateImage sv s []).1.2 = none) ∧
        (generateImage sv sk []).1.2 = some m := by
  induction parts with
  | nil => left; simp
  | cons p rest ih =>
    cases hp : (generateImage sv p []).1.2 with
    | some m => right; exact ⟨[], p, rest, m, rfl, by simp, hp⟩
    | none =>
      rcases ih with h | ⟨pre, sk, post, m, h1, h2, h3⟩
      · left
        intro s hs
        rcases List.mem_cons.1 hs with rfl | hs
        · exact hp
        · exact h s hs
      · right
        refine ⟨p :: pre, sk, post, m, by simp [h1], ?_, h3⟩
        intro s hs
        rcases List.mem_cons.1 hs with rfl | hs
        · exact hp
        · exact h2 s hs

/-- The handler on a body that does not bind. -/
theorem handleGenerateComic_bind_error (sv : Services) (body : Option Json)
    (h : (BindJSON body).2 ≠ none) :
    handleGenerateComic sv body =
      ({ status := 400, body := [("error", HValue.str "Invalid input")] }, []) := by
  cases hb : (BindJSON body).2 with
  | none => exact absurd hb h
  | some e => unfold handleGenerateComic; simp only [hb]; rfl

/-- The handler when segmentation fails. -/
theorem handleGenerateComic_split_error (sv : Services) (body : Option Json) (story : Bytes)
    (m : String) (hbind : BindJSON body = ({ Story := story }, none))
    (hseg : (splitStoryIntoParts sv story []).1.2 = some m) :
    handleGenerateComic sv body =
      ({ status := 500, body := [("error", HValue.str m)] },
        [Call.completion (completionRequest story)]) := by
  unfold handleGenerateComic
  simp only [hbind, hseg]
  rw [splitStoryIntoParts_log]; rfl

/-- The handler when an image call fails. -/
theorem handleGenerateComic_image_error (sv : Services) (body : Option Json) (story : Bytes)
    (segs : Slice Bytes) (pre : List Bytes) (sk : Bytes) (post : List Bytes) (m : String)
    (hbind : BindJSON body = ({ Story := story }, none))
    (hseg : (splitStoryIntoParts sv story []).1 = (segs, none))
    (hsplit : segs.toList = pre ++ sk :: post)
    (hpre : ∀ s ∈ pre, (generateImage sv s []).1.2 = none)
    (hk : (generateImage sv sk []).1.2 = some m) :
    handleGenerateComic sv body =
      ({ status := 500, body := [("error", HValue.str m)] },
        Call.completion (completionRequest story) ::
          (pre ++ [sk]).map (fun s => Call.image (imageRequest s))) := by
  rw [handleGenerateComic_loop sv body story segs hbind hseg, hsplit,
    generateLoop_returned sv pre sk post m _ _ hpre hk]
  rfl

/-- The handler when every call succeeds. -/
theorem handleGenerateComic_ok (sv : Services) (body : Option Json) (story : Bytes)
    (segs : Slice Bytes) (hbind : BindJSON body = ({ Story := story }, none))
    (hseg : (splitStoryIntoParts sv story []).1 = (segs, none))
    (himg : ∀ s ∈ segs.toList, (generateImage sv s []).1.2 = none) :
    ∃ images : Slice Bytes,
      handleGenerateComic sv body =
        ({ status := 200, body := [("images", HValue.strs images)] },
          Call.completion (completionRequest story) ::
            segs.toList.map (fun s => Call.image (imageRequest s))) ∧
      images.toList = segs.toList.map (fun s => (generateImage sv s []).1.1) ∧
      (segs.toList = [] → images = Slice.nil) := by
  obtain ⟨images, h1, h2, h3⟩ :=
    generateLoop_done sv segs.toList Slice.nil [Call.completion (completionRequest story)] himg
  refine ⟨images, ?_, ?_, h3⟩
  · rw [handleGenerateComic_loop sv body story segs hbind hseg, h1]; rfl
  · rw [h2]; simp [Slice.toList]

/-- A body that is an object with no key of the field `story` binds to the zero
`StoryRequest`. -/
theorem BindJSON_no_story_key (kvs : List (String × Json))
    (h : ∀ kv ∈ kvs, keyMatchesStory kv.1 = false) :
    BindJSON (some (Json.obj kvs)) = ({ Story := [] }, none) := by
  have key : ∀ (l : List (String × Json)) (acc : StoryRequest × Option BindError),
      (∀ kv ∈ l, keyMatchesStory kv.1 = false) → l.foldl bindField acc = acc := by
    intro l
    induction l with
    | nil => intro acc _; rfl
    | cons kv rest ih =>
      intro acc hl
      have h0 : bindField acc kv = acc := by
        simp [bindField, hl kv (List.mem_cons_self _ _)]
      rw [List.foldl_cons, h0]
      exact ih acc (fun x hx => hl x (List.mem_cons_of_mem _ hx))
  simp only [BindJSON]
  exact key kvs _ h

/-- C2: when the request binds, segmentation succeeds with segments `segs` and the
image call succeeds on every segment, the handler responds 200 with an `images`
slice of the same length whose i-th element is the URL the image call returns on
the i-th segment, and the calls made are the completion call followed by one
image call per segment, in order. -/
theorem handleGenerateComic_images_aligned (sv : Services) (body : Option Json) (story : Bytes)
    (segs : Slice Bytes) (hbind : BindJSON body = ({ Story := story }, none))
    (hseg : (splitStoryIntoParts sv story []).1 = (segs, none))
    (himg : ∀ s ∈ segs.toList, (generateImage sv s []).1.2 = none) :
    ∃ images : Slice Bytes,
      handleGenerateComic sv body =
        ({ status := 200, body := [("images", HValue.strs images)] },
          Call.completion (completionRequest story) ::
            segs.toList.map (fun s => Call.image (imageRequest s))) ∧
      images.len = segs.len ∧
      images.toList = segs.toList.map (fun s => (generateImage sv s []).1.1) ∧
      ∀ i : Nat, images.toList[i]? = (segs.toList[i]?).map (fun s => (generateImage sv s []).1.1) := by
  obtain ⟨images, h1, h2, _⟩ :=
    generateLoop_done sv segs.toList Slice.nil [Call.completion (completionRequest story)] himg
  have h2' : images.toList = segs.toList.map (fun s => (generateImage sv s []).1.1) := by
    rw [h2]; simp [Slice.toList]
  refine ⟨images, ?_, ?_, h2', ?_⟩
  · rw [handleGenerateComic_loop sv body story segs hbind hseg, h1]; rfl
  · simp [Slice.len, h2']
  · intro i; rw [h2']; simp

theorem handleGenerateComic_images_aligned_witness :
    ∃ images : Slice Bytes,
      handleGenerateComic (sampleServices heroReply imageOk) (storyBody heroText) =
        ({ status := 200, body := [("images", HValue.strs images)] },
          Call.completion (completionRequest heroText) ::
            [ascii "A hero rises.", ascii "The hero falls.", ascii "The hero returns."].map
              (fun s => Call.image (imageRequest s))) ∧
      images.len = 3 ∧
      images.toList =
        [ascii "A hero rises.", ascii "The hero falls.", ascii "The hero returns."].map
          (fun s => (generateImage (sampleServices heroReply imageOk) s []).1.1) ∧
      ∀ i : Nat, images.toList[i]? =
        ([ascii "A hero rises.", ascii "The hero falls.", ascii "The hero returns."][i]?).map
          (fun s => (generateImage (sampleServices heroReply imageOk) s []).1.1) :=
  handleGenerateComic_images_aligned (sampleServices heroReply imageOk) (storyBody heroText)
    heroText
    (Slice.ofList [ascii "A hero rises.", ascii "The hero falls.", ascii "The hero returns."])
    (by rfl) (by rfl) (by decide)

/-- C3: when the image call succeeds on the segments before `sk` and fails on `sk`
with message `m`, the handler answers 500 with the body `{"error": m}` (no
`images` entry, none of the URLs obtained so far), and the image service has been
called on exactly the segments up to and including `sk`, once each and in order:
not on the segments after `sk`, and not a second time on `sk`. -/
theorem handleGenerateComic_abort_at_first_failure (sv : Services) (body : Option Json)
    (story : Bytes) (segs : Slice Bytes) (pre : List Bytes) (sk : Bytes) (post : List Bytes)
    (m : String) (hbind : BindJSON body = ({ Story := story }, none))
    (hseg : (splitStoryIntoParts sv story []).1 = (segs, none))
    (hsplit : segs.toList = pre ++ sk :: post)
    (hpre : ∀ s ∈ pre, (generateImage sv s []).1.2 = none)
    (hk : (generateImage sv sk []).1.2 = some m) :
    handleGenerateComic sv body =
        ({ status := 500, body := [("error", HValue.str m)] },
          Call.completion (completionRequest story) ::
            (pre ++ [sk]).map (fun s => Call.image (imageRequest s))) ∧
      (∀ kv ∈ (handleGenerateComic sv body).1.body, kv.1 ≠ "images") ∧
      imagePrompts (handleGenerateComic sv body).2 = pre ++ [sk] := by
  have h := handleGenerateComic_image_error sv body story segs pre sk post m hbind hseg hsplit
    hpre hk
  refine ⟨h, ?_, ?_⟩
  · rw [h]; intro kv hkv
    simp only [List.mem_singleton] at hkv
    subst hkv
    show "error" ≠ "images"
    decide
  · rw [h]; exact imagePrompts_calls _ _

theorem handleGenerateComic_abort_at_first_failure_witness :
    handleGenerateComic (sampleServices heroReply (imageFailOn (ascii "The hero falls.")))
          (storyBody heroText) =
        ({ status := 500, body := [("error", HValue.str "image service unavailable")] },
          Call.completion (completionRequest heroText) ::
            ([ascii "A hero rises."] ++ [ascii "The hero falls."]).map
              (fun s => Call.image (imageRequest s))) ∧
      (∀ kv ∈ (handleGenerateComic
          (sampleServices heroReply (imageFailOn (ascii "The hero falls.")))
          (storyBody heroText)).1.body, kv.1 ≠ "images") ∧
      imagePrompts (handleGenerateComic
          (sampleServices heroReply (imageFailOn (ascii "The hero falls.")))
          (storyBody heroText)).2 = [ascii "A hero rises."] ++ [ascii "The hero falls."] :=
  handleGenerateComic_abort_at_first_failure
    (sampleServices heroReply (imageFailOn (ascii "The hero falls."))) (storyBody heroText)
    heroText
    (Slice.ofList [ascii "A hero rises.", ascii "The hero falls.", ascii "The hero returns."])
    [ascii "A hero rises."] (ascii "The hero falls.") [ascii "The hero returns."]
    "image service unavailable" (by rfl) (by rfl) (by rfl) (by decide) (by decide)

/-- C4: when the parsed completion response has no choice, `splitStoryIntoParts`
returns a nil slice together with the error `no response from GPT-3`, and the
handler answers 500 with that message, having made the completion call and no
image call. -/
theorem empty_choices_is_a_failure (sv : Services) (body : Option Json) (story : Bytes)
    (resp : OpenAIResponse) (log : List Call)
    (hbind : BindJSON body = ({ Story := story }, none))
    (hresp : sv.completion (completionRequest story) = Except.ok resp)
    (hempty : resp.Choices = []) :
    (splitStoryIntoParts sv story log).1 = (Slice.nil, some "no response from GPT-3") ∧
      handleGenerateComic sv body =
        ({ status := 500, body := [("error", HValue.str "no response from GPT-3")] },
          [Call.completion (completionRequest story)]) := by
  have h : ∀ l, (splitStoryIntoParts sv story l).1 = (Slice.nil, some "no response from GPT-3") := by
    intro l
    unfold splitStoryIntoParts
    simp [hresp, hempty]
  exact ⟨h log, handleGenerateComic_split_error sv body story _ hbind (by rw [h])⟩

theorem empty_choices_is_a_failure_witness :
    (splitStoryIntoParts (sampleServices emptyReply imageOk) heroText []).1 =
        (Slice.nil, some "no response from GPT-3") ∧
      handleGenerateComic (sampleServices emptyReply imageOk) (storyBody heroText) =
        ({ status := 500, body := [("error", HValue.str "no response from GPT-3")] },
          [Call.completion (completionRequest heroText)]) :=
  empty_choices_is_a_failure (sampleServices emptyReply imageOk) (storyBody heroText) heroText
    { Choices := [] } [] (by rfl) (by rfl) (by rfl)

/-- C5, as the specification states it, fails: the body `{"title": "x"}` is a
well-formed object without the story field, and the handler answers 200 after
calling the segmentation step with the empty story. -/
theorem missing_story_is_not_rejected :
    (∀ kv ∈ [("title", Json.str (ascii "x"))], keyMatchesStory kv.1 = false) ∧
      (handleGenerateComic (sampleServices heroReply imageOk) titleBody).1.status = 200 ∧
      (handleGenerateComic (sampleServices heroReply imageOk) titleBody).2.head? =
        some (Call.completion (completionRequest [])) := by
  refine ⟨by decide, by rfl, by rfl⟩

/-- C5, amended: a body that is a well-formed object without the story field binds
to the empty story; the handler then behaves as on `{"story": ""}`: it calls the
segmentation step with the empty story first, and its status is 200 or 500, not
400. -/
theorem missing_story_binds_empty (sv : Services) (kvs : List (String × Json))
    (h : ∀ kv ∈ kvs, keyMatchesStory kv.1 = false) :
    BindJSON (some (Json.obj kvs)) = ({ Story := [] }, none) ∧
      handleGenerateComic sv (some (Json.obj kvs)) = handleGenerateComic sv (storyBody []) ∧
      (∃ rest, (handleGenerateComic sv (some (Json.obj kvs))).2 =
        Call.completion (completionRequest []) :: rest) ∧
      ((handleGenerateComic sv (some (Json.obj kvs))).1.status = 200 ∨
        (handleGenerateComic sv (some (Json.obj kvs))).1.status = 500) ∧
      (handleGenerateComic sv (some (Json.obj kvs))).1.status ≠ 400 := by
  have hb := BindJSON_no_story_key kvs h
  have hb' : BindJSON (storyBody []) = ({ Story := [] }, none) := by rfl
  have hcases : (∃ rest, (handleGenerateComic sv (some (Json.obj kvs))).2 =
        Call.completion (completionRequest []) :: rest) ∧
      ((handleGenerateComic sv (some (Json.obj kvs))).1.status = 200 ∨
        (handleGenerateComic sv (some (Json.obj kvs))).1.status = 500) := by
    cases hs : (splitStoryIntoParts sv [] []).1.2 with
    | some m =>
      rw [handleGenerateComic_split_error sv _ [] m hb hs]
      exact ⟨⟨[], rfl⟩, Or.inr rfl⟩
    | none =>
      have hseg : (splitStoryIntoParts sv [] []).1 = ((splitStoryIntoParts sv [] []).1.1, none) := by
        rw [← hs]
      rcases generateImage_first_failure sv (splitStoryIntoParts sv [] []).1.1.toList with
        hall | ⟨pre, sk, post, m, h1, h2, h3⟩
      · obtain ⟨images, hi, _⟩ := handleGenerateComic_ok sv _ [] _ hb hseg hall
        rw [hi]; exact ⟨⟨_, rfl⟩, Or.inl rfl⟩
      · rw [handleGenerateComic_image_error sv _ [] _ pre sk post m hb hseg h1 h2 h3]
        exact ⟨⟨_, rfl⟩, Or.inr rfl⟩
  refine ⟨hb, ?_, hcases.1, hcases.2, ?_⟩
  · unfold handleGenerateComic; rw [hb, hb']
  · rcases hcases.2 with h2 | h5 <;> omega

theorem missing_story_binds_empty_witness :
    BindJSON titleBody = ({ Story := [] }, none) ∧
      handleGenerateComic (sampleServices heroReply imageOk) titleBody =
        handleGenerateComic (sampleServices heroReply imageOk) (storyBody []) ∧
      (∃ rest, (handleGenerateComic (sampleServices heroReply imageOk) titleBody).2 =
        Call.completion (completionRequest []) :: rest) ∧
      ((handleGenerateComic (sampleServices heroReply imageOk) titleBody).1.status = 200 ∨
        (handleGenerateComic (sampleServices heroReply imageOk) titleBody).1.status = 500) ∧
      (handleGenerateComic (sampleServices heroReply imageOk) titleBody).1.status ≠ 400 :=
  missing_story_binds_empty (sampleServices heroReply imageOk)
    [("title", Json.str (ascii "x"))] (by decide)

/-- C6: a body that does not bind is answered 400 with `{"error": "Invalid input"}`
and no call is made.  When the body binds, the status is 500 or 200; it is 500
exactly when the segmentation call fails or the image call fails on some
segment, and then the body is `{"error": m}` for the message `m` of the first
failing call: the segmentation call if it fails, otherwise the image call on the
first segment on which it fails. -/
theorem handleGenerateComic_status (sv : Services) (body : Option Json) :
    ((BindJSON body).2 ≠ none →
        handleGenerateComic sv body =
          ({ status := 400, body := [("error", HValue.str "Invalid input")] }, [])) ∧
      ((BindJSON body).2 = none →
        ((handleGenerateComic sv body).1.status = 500 ∨
          (handleGenerateComic sv body).1.status = 200) ∧
        ((handleGenerateComic sv body).1.status = 500 ↔
          ((splitStoryIntoParts sv (BindJSON body).1.Story []).1.2 ≠ none ∨
            ∃ s ∈ (splitStoryIntoParts sv (BindJSON body).1.Story []).1.1.toList,
              (generateImage sv s []).1.2 ≠ none)) ∧
        ((handleGenerateComic sv body).1.status = 500 →
          ∃ m, (handleGenerateComic sv body).1 =
              { status := 500, body := [("error", HValue.str m)] } ∧
            ((splitStoryIntoParts sv (BindJSON body).1.Story []).1.2 = some m ∨
              ((splitStoryIntoParts sv (BindJSON body).1.Story []).1.2 = none ∧
                ∃ pre sk post,
                  (splitStoryIntoParts sv (BindJSON body).1.Story []).1.1.toList =
                    pre ++ sk :: post ∧
                  (∀ s ∈ pre, (generateImage sv s []).1.2 = none) ∧
                  (generateImage sv sk []).1.2 = some m)))) := by
  refine ⟨handleGenerateComic_bind_error sv body, ?_⟩
  intro hnone
  have hb : BindJSON body = ({ Story := (BindJSON body).1.Story }, none) := by
    rw [← hnone]
  generalize (BindJSON body).1.Story = story at hb ⊢
  cases hs : (splitStoryIntoParts sv story []).1.2 with
  | some m =>
    rw [handleGenerateComic_split_error sv body story m hb hs]
    exact ⟨Or.inl rfl, ⟨fun _ => Or.inl (by simp), fun _ => rfl⟩,
      fun _ => ⟨m, rfl, Or.inl rfl⟩⟩
  | none =>
    have hseg : (splitStoryIntoParts sv story []).1 =
        ((splitStoryIntoParts sv story []).1.1, none) := by rw [← hs]
    rcases generateImage_first_failure sv (splitStoryIntoParts sv story []).1.1.toList with
      hall | ⟨pre, sk, post, m, h1, h2, h3⟩
    · obtain ⟨images, hi, _⟩ := handleGenerateComic_ok sv body story _ hb hseg hall
      rw [hi]
      have h200 : ¬ ((200 : Nat) = 500) := by decide
      refine ⟨Or.inr rfl, ⟨fun h => absurd h h200, ?_⟩, fun h => absurd h h200⟩
      rintro (h | ⟨s, hs1, hs2⟩)
      · exact absurd rfl h
      · exact absurd (hall s hs1) hs2
    · rw [handleGenerateComic_image_error sv body story _ pre sk post m hb hseg h1 h2 h3]
      refine ⟨Or.inl rfl, ⟨fun _ => Or.inr ⟨sk, ?_, ?_⟩, fun _ => rfl⟩,
        fun _ => ⟨m, rfl, Or.inr ⟨rfl, pre, sk, post, h1, h2, h3⟩⟩⟩
      · rw [h1]; simp
      · rw [h3]; simp

/-- C7: when the parsed completion response has at least one choice,
`splitStoryIntoParts` succeeds with `splitByDelimiter` of the first choice's text
on the newline; any other run whose response has the same first choice, whatever
its later choices, returns the same value. -/
theorem splitStoryIntoParts_first_choice (sv : Services) (story : Bytes) (log : List Call)
    (resp : OpenAIResponse) (c : Choice) (cs : List Choice)
    (hresp : sv.completion (completionRequest story) = Except.ok resp)
    (hc : resp.Choices = c :: cs) :
    (splitStoryIntoParts sv story log).1 = (splitByDelimiter c.Text (ascii "\n"), none) ∧
      ∀ (sv' : Services) (story' : Bytes) (log' : List Call) (resp' : OpenAIResponse)
        (cs' : List Choice),
        sv'.completion (completionRequest story') = Except.ok resp' →
        resp'.Choices = c :: cs' →
        (splitStoryIntoParts sv' story' log').1 = (splitStoryIntoParts sv story log).1 := by
  have key : ∀ (sv : Services) (story : Bytes) (log : List Call) (resp : OpenAIResponse)
      (cs : List Choice), sv.completion (completionRequest story) = Except.ok resp →
      resp.Choices = c :: cs →
      (splitStoryIntoParts sv story log).1 = (splitByDelimiter c.Text (ascii "\n"), none) := by
    intro sv story log resp cs hresp hc
    unfold splitStoryIntoParts
    simp [hresp, hc]
  refine ⟨key sv story log resp cs hresp hc, ?_⟩
  intro sv' story' log' resp' cs' hresp' hc'
  rw [key sv story log resp cs hresp hc, key sv' story' log' resp' cs' hresp' hc']

theorem splitStoryIntoParts_first_choice_witness :
    (splitStoryIntoParts (sampleServices twoChoiceReply imageOk) heroText []).1 =
        (splitByDelimiter (ascii " one \n\ntwo") (ascii "\n"), none) ∧
      ∀ (sv' : Services) (story' : Bytes) (log' : List Call) (resp' : OpenAIResponse)
        (cs' : List Choice),
        sv'.completion (completionRequest story') = Except.ok resp' →
        resp'.Choices = { Text := ascii " one \n\ntwo" } :: cs' →
        (splitStoryIntoParts sv' story' log').1 =
          (splitStoryIntoParts (sampleServices twoChoiceReply imageOk) heroText []).1 :=
  splitStoryIntoParts_first_choice (sampleServices twoChoiceReply imageOk) heroText []
    { Choices := [{ Text := ascii " one \n\ntwo" }, { Text := ascii "other" }] }
    { Text := ascii " one \n\ntwo" } [{ Text := ascii "other" }] (by rfl) (by rfl)

/-- C8: for a parsed image response, `generateImage` succeeds exactly when the
data list is not empty; it then returns the URL of the first entry, whatever the
later entries; on an empty data list it returns the empty string and the error
`no image generated`.  The request it sends asks for one image. -/
theorem generateImage_first_url (sv : Services) (description : Bytes) (log : List Call)
    (resp : ImageResponse) (hresp : sv.image (imageRequest description) = Except.ok resp) :
    ((generateImage sv description log).1.2 = none ↔ resp.Data ≠ []) ∧
      (∀ d ds, resp.Data = d :: ds → (generateImage sv description log).1 = (d.URL, none)) ∧
      (resp.Data = [] →
        (generateImage sv description log).1 = ([], some "no image generated")) := by
  have h1 : ∀ d ds, resp.Data = d :: ds →
      (generateImage sv description log).1 = (d.URL, none) := by
    intro d ds hd
    unfold generateImage
    simp [hresp, hd]
  have h2 : resp.Data = [] →
      (generateImage sv description log).1 = ([], some "no image generated") := by
    intro hd
    unfold generateImage
    simp [hresp, hd]
  refine ⟨?_, h1, h2⟩
  cases hd : resp.Data with
  | nil => rw [h2 hd]; simp
  | cons d ds => rw [h1 d ds hd]; simp

theorem generateImage_first_url_witness :
    ((generateImage (sampleServices heroReply imageTwo) (ascii "A hero rises.") []).1.2 = none ↔
        [({ URL := ascii "https://img.example/1" } : ImageDatum),
          { URL := ascii "https://img.example/2" }] ≠ []) ∧
      (∀ d ds, [({ URL := ascii "https://img.example/1" } : ImageDatum),
          { URL := ascii "https://img.example/2" }] = d :: ds →
        (generateImage (sampleServices heroReply imageTwo) (ascii "A hero rises.") []).1 =
          (d.URL, none)) ∧
      ([({ URL := ascii "https://img.example/1" } : ImageDatum),
          { URL := ascii "https://img.example/2" }] = [] →
        (generateImage (sampleServices heroReply imageTwo) (ascii "A hero rises.") []).1 =
          ([], some "no image generated")) :=
  generateImage_first_url (sampleServices heroReply imageTwo) (ascii "A hero rises.") []
    { Data := [{ URL := ascii "https://img.example/1" }, { URL := ascii "https://img.example/2" }] }
    (by rfl)

/-- The result of `splitStoryIntoParts` when the parsed response has a first choice. -/
theorem splitStoryIntoParts_choice (sv : Services) (story : Bytes) (log : List Call)
    (resp : OpenAIResponse) (c : Choice) (cs : List Choice)
    (hresp : sv.completion (completionRequest story) = Except.ok resp)
    (hc : resp.Choices = c :: cs) :
    (splitStoryIntoParts sv story log).1 = (splitByDelimiter c.Text (ascii "\n"), none) := by
  unfold splitStoryIntoParts
  simp [hresp, hc]

/-- C10: when the first choice of the parsed completion response is empty or white
space only (every rune of it is white space, newlines included; in particular
when every byte of it is an ASCII blank), segmentation succeeds with the nil
slice, and the handler makes no image call and answers 200 with `images` the nil
slice. -/
theorem blank_text_yields_nil_images (sv : Services) (body : Option Json) (story : Bytes)
    (resp : OpenAIResponse) (c : Choice) (cs : List Choice) (log : List Call)
    (hbind : BindJSON body = ({ Story := story }, none))
    (hresp : sv.completion (completionRequest story) = Except.ok resp)
    (hc : resp.Choices = c :: cs) (hblank : whitespaceOnly c.Text = true) :
    (splitStoryIntoParts sv story log).1 = (Slice.nil, none) ∧
      handleGenerateComic sv body =
        ({ status := 200, body := [("images", HValue.strs Slice.nil)] },
          [Call.completion (completionRequest story)]) ∧
      imagePrompts (handleGenerateComic sv body).2 = [] := by
  have hnil : splitByDelimiter c.Text (ascii "\n") = Slice.nil := by
    rw [splitByDelimiter_eq,
      trimmedNonBlankLines_spaceSeq _ ((whitespaceOnly_iff _).1 hblank)]
    rfl
  have hsplit : ∀ l, (splitStoryIntoParts sv story l).1 = (Slice.nil, none) := by
    intro l
    rw [splitStoryIntoParts_choice sv story l resp c cs hresp hc, hnil]
  obtain ⟨images, h1, _, h3⟩ :=
    handleGenerateComic_ok sv body story Slice.nil hbind (hsplit []) (by simp [Slice.toList])
  have himg : images = Slice.nil := h3 rfl
  subst himg
  have h1' : handleGenerateComic sv body =
      ({ status := 200, body := [("images", HValue.strs Slice.nil)] },
        [Call.completion (completionRequest story)]) := by
    rw [h1]; rfl
  refine ⟨hsplit log, h1', ?_⟩
  rw [h1']; rfl

theorem blank_text_yields_nil_images_witness :
    whitespaceOnly (ascii " \n\t \n" ++ [0xC2, 0xA0]) = true ∧
      (splitStoryIntoParts (sampleServices blankReply imageOk) heroText []).1 =
        (Slice.nil, none) ∧
      handleGenerateComic (sampleServices blankReply imageOk) (storyBody heroText) =
        ({ status := 200, body := [("images", HValue.strs Slice.nil)] },
          [Call.completion (completionRequest heroText)]) ∧
      imagePrompts (handleGenerateComic (sampleServices blankReply imageOk)
        (storyBody heroText)).2 = [] :=
  ⟨by decide,
    blank_text_yields_nil_images (sampleServices blankReply imageOk) (storyBody heroText)
      heroText
      { Choices := [{ Text := ascii " \n\t \n" ++ [0xC2, 0xA0] }, { Text := ascii "other" }] }
      { Text := ascii " \n\t \n" ++ [0xC2, 0xA0] } [{ Text := ascii "other" }] []
      (by rfl) (by rfl) (by rfl) (by decide)⟩

end StoryGen
